import Mathlib

/-!
Verification of the object-graph serialization codec found in
`lib/serialization/ObjectMiddleware.js`, the pipeline runner in
`lib/serialization/Serializer.js`, and the field-list serializer helper
(`PropertiesSerializer`).

The JavaScript values handled by the codec are embedded as the inductive
type `Value`.  JavaScript object identity (pointer equality) is modelled
by an explicit `id : Nat` carried by every structured object and every
byte buffer; a well-formed heap snapshot has one content per identity
(`wfB` below), so structural equality of terms coincides with JS `Map`
key equality: strings compare by value, objects and buffers by identity.
Machine numbers are modelled as `Int` (no claim involves fractional or
overflow behaviour).  The JS `undefined` value is `Value.undef`; the
escape sentinel of the codec is the JS `null`, i.e. `Value.null`.

Registered serializer capabilities are modelled in the shape of the one
capability implementation present in the repository (the field-list
`PropertiesSerializer`): a capability writes a fixed number of sub-values
in order on serialize and reads that many back on deserialize,
constructing an object of a fixed runtime type.  Dynamic module loading
(Node's `require`) performed by `deserialize` for non-global requests is
modelled by an opaque `resolve` function stored in the registry, as the
module system is outside this repository's sources.
-/

/-- An embedded JavaScript value, as handled by the serialization codec.
`obj id tag fields` is a structured object with identity `id`, runtime
type (constructor) `tag` and positional field values `fields` (the values
its registered field-list capability writes, in order).  `buf id content`
is a byte buffer with identity `id`. -/
inductive Value where
  | null : Value
  | undef : Value
  | num : Int → Value
  | boolV : Bool → Value
  | str : String → Value
  | buf : Nat → List Nat → Value
  | obj : Nat → Nat → List Value → Value

mutual
/-- Decidable equality of embedded values (the derive handler does not
support the nested `List Value`). -/
def decEqV : (a b : Value) → Decidable (a = b)
  | .null, .null => isTrue rfl
  | .null, .undef | .null, .num _ | .null, .boolV _ | .null, .str _
  | .null, .buf _ _ | .null, .obj _ _ _ => isFalse fun h => Value.noConfusion h
  | .undef, .undef => isTrue rfl
  | .undef, .null | .undef, .num _ | .undef, .boolV _ | .undef, .str _
  | .undef, .buf _ _ | .undef, .obj _ _ _ => isFalse fun h => Value.noConfusion h
  | .num n, .num m =>
    if h : n = m then isTrue (by rw [h]) else isFalse fun hh => h (Value.num.inj hh)
  | .num _, .null | .num _, .undef | .num _, .boolV _ | .num _, .str _
  | .num _, .buf _ _ | .num _, .obj _ _ _ => isFalse fun h => Value.noConfusion h
  | .boolV a, .boolV b =>
    if h : a = b then isTrue (by rw [h]) else isFalse fun hh => h (Value.boolV.inj hh)
  | .boolV _, .null | .boolV _, .undef | .boolV _, .num _ | .boolV _, .str _
  | .boolV _, .buf _ _ | .boolV _, .obj _ _ _ => isFalse fun h => Value.noConfusion h
  | .str a, .str b =>
    if h : a = b then isTrue (by rw [h]) else isFalse fun hh => h (Value.str.inj hh)
  | .str _, .null | .str _, .undef | .str _, .num _ | .str _, .boolV _
  | .str _, .buf _ _ | .str _, .obj _ _ _ => isFalse fun h => Value.noConfusion h
  | .buf i c, .buf j d =>
    match Nat.decEq i j, List.hasDecEq c d with
    | isTrue h1, isTrue h2 => isTrue (by rw [h1, h2])
    | isFalse h, _ => isFalse fun hh => h (Value.buf.inj hh).1
    | _, isFalse h => isFalse fun hh => h (Value.buf.inj hh).2
  | .buf _ _, .null | .buf _ _, .undef | .buf _ _, .num _ | .buf _ _, .boolV _
  | .buf _ _, .str _ | .buf _ _, .obj _ _ _ => isFalse fun h => Value.noConfusion h
  | .obj i t fs, .obj j u gs =>
    match Nat.decEq i j, Nat.decEq t u, decEqVL fs gs with
    | isTrue h1, isTrue h2, isTrue h3 => isTrue (by rw [h1, h2, h3])
    | isFalse h, _, _ => isFalse fun hh => h (Value.obj.inj hh).1
    | _, isFalse h, _ => isFalse fun hh => h (Value.obj.inj hh).2.1
    | _, _, isFalse h => isFalse fun hh => h (Value.obj.inj hh).2.2
  | .obj _ _ _, .null | .obj _ _ _, .undef | .obj _ _ _, .num _
  | .obj _ _ _, .boolV _ | .obj _ _ _, .str _ | .obj _ _ _, .buf _ _ =>
    isFalse fun h => Value.noConfusion h

/-- Decidable equality of lists of embedded values. -/
def decEqVL : (xs ys : List Value) → Decidable (xs = ys)
  | [], [] => isTrue rfl
  | [], _ :: _ => isFalse fun h => List.noConfusion h
  | _ :: _, [] => isFalse fun h => List.noConfusion h
  | x :: xs, y :: ys =>
    match decEqV x y, decEqVL xs ys with
    | isTrue h1, isTrue h2 => isTrue (by rw [h1, h2])
    | isFalse h, _ => isFalse fun hh => h (List.cons.inj hh).1
    | _, isFalse h => isFalse fun hh => h (List.cons.inj hh).2
end

instance : DecidableEq Value := decEqV

/-- Write-side referenceable table: JS `Map` from value (string by value,
object/buffer by identity, cf. the heap modelling above) to the integer
position assigned at first appearance.  A JS `Map.set` is modelled by
prepending; `lookupW` takes the newest binding, which is `set`'s
overwrite semantics. -/
abbrev WMap := List (Value × Nat)

/-- Write-side codec state: the referenceable table and `currentPos`. -/
structure WState where
  map : WMap
  pos : Nat

/-- JS `referenceable.get(item)` on the write side. -/
def lookupW : WMap → Value → Option Nat
  | [], _ => none
  | (k, p) :: m, v => if k = v then some p else lookupW m v

/-- JS `addReferenceable(item)` on the write side:
`referenceable.set(item, currentPos++)`. -/
def addRefW (v : Value) (W : WState) : WState :=
  ⟨(v, W.pos) :: W.map, W.pos + 1⟩

/-- Read-side referenceable table: position to reconstructed value. -/
abbrev RMap := List (Nat × Value)

/-- Read-side codec state: the referenceable table and `currentPos`. -/
structure RState where
  map : RMap
  pos : Nat

/-- JS `referenceable.get(currentPos + nextItem)` on the read side; the
index is an `Int` because the stored relative offset is added to the
position.  A miss returns `none` (JS `undefined`). -/
def lookupR : RMap → Int → Option Value
  | [], _ => none
  | (k, v) :: m, i => if (k : Int) = i then some v else lookupR m i

/-- JS `addReferenceable(item)` on the read side:
`referenceable.set(currentPos++, item)`. -/
def addRefR (v : Value) (S : RState) : RState :=
  ⟨(S.pos, v) :: S.map, S.pos + 1⟩

/-- A registered serializer capability, in the shape of the repository's
field-list serializer: `arity` sub-values are written/read and
`deserialize` constructs an object of runtime type `ctorTag`. -/
structure Capability where
  arity : Nat
  ctorTag : Nat
deriving DecidableEq

/-- Key of the per-type serializer table: `some t` is the constructor of
`Value.obj _ t _`; `none` is the `Buffer` constructor (byte buffers are
`typeof "object"` and therefore also reach `getSerializerFor`). -/
abbrev CtorKey := Option Nat

/-- One entry of the per-type serializer table: the `request` module
locator (`none` is `GLOBAL_SERIALIZER_REQUEST`, i.e. JS `null`), the
`exportName`, and the capability. -/
structure TypeConfig where
  request : Option String
  exportName : Option String
  cap : Capability
deriving DecidableEq

/-- The serializer registry: the `serializers` map keyed by constructor,
the `globalSerializers` map keyed by export name, and the opaque model of
`require(request)[exportName]` used on deserialize. -/
structure Registry where
  types : List (CtorKey × TypeConfig)
  globals : List (Option String × Capability)
  resolve : String → Option String → Option CtorKey

/-- JS `serializers.get(c)`. -/
def lookupT : List (CtorKey × TypeConfig) → CtorKey → Option TypeConfig
  | [], _ => none
  | (k, c) :: m, t => if k = t then some c else lookupT m t

/-- JS `globalSerializers.get(exportName)`. -/
def lookupG : List (Option String × Capability) → Option String → Option Capability
  | [], _ => none
  | (k, c) :: m, t => if k = t then some c else lookupG m t

/-- A `string | null` value as it appears on the stream (`request` and
`exportName` slots of an object section). -/
def optV : Option String → Value
  | none => Value.null
  | some s => Value.str s

/-- Errors thrown by `ObjectMiddleware.serialize`
(`No serializer registered for ...`). -/
inductive SErr where
  | noSerializer : CtorKey → SErr
deriving DecidableEq

/-- Errors thrown by `ObjectMiddleware.deserialize`: `eos` is
`Unexpected end of stream`; `noDeserializer` is
`No deserializer registered for ...` (and the crash on an unresolvable
module request); `fuel` is the embedding's recursion fuel running out and
never occurs for the fuel supplied by `deserialize`. -/
inductive DErr where
  | eos | fuel | noDeserializer
deriving DecidableEq

mutual
/-- JS `process(item)` inside `ObjectMiddleware.serialize`.  Returns the
stream items pushed for this value together with the updated state.
Branches, in source order: a hit in the referenceable table emits
`[ESCAPE, ref - currentPos]`; a non-null `typeof "object"` value (a
structured object or a byte buffer) is serialized through its registered
capability (header `[ESCAPE, request, exportName]`, then the capability's
writes, then `addReferenceable(item)`); a string is registered and
emitted verbatim; a value equal to the escape sentinel emits
`[ESCAPE, ESCAPE_ESCAPE_VALUE]`; everything else is emitted verbatim.
The `Buffer.isBuffer` branch of the source is unreachable here (buffers
are `typeof "object"` and taken by the object branch first); the
`typeof "function"` branch is not modelled (`Value` has no functions).
The field-list capability writes each field of an object in order, and
writes nothing for a byte buffer (a buffer has no listed fields). -/
def process (reg : Registry) (v : Value) (W : WState) :
    Except SErr (List Value × WState) :=
  match lookupW W.map v with
  | some r => .ok ([Value.null, Value.num ((r : Int) - (W.pos : Int))], W)
  | none => processNew reg v W

/-- The branches of `process` for a value with no referenceable-table
entry (split out of `process` for proof convenience only). -/
def processNew (reg : Registry) (v : Value) (W : WState) :
    Except SErr (List Value × WState) :=
  match v with
  | .obj id tag fields =>
    match lookupT reg.types (some tag) with
    | none => .error (.noSerializer (some tag))
    | some cfg =>
      match processList reg fields W with
      | .error e => .error e
      | .ok (out, W1) =>
        .ok (Value.null :: optV cfg.request :: optV cfg.exportName :: out,
             addRefW (.obj id tag fields) W1)
  | .buf id content =>
    match lookupT reg.types none with
    | none => .error (.noSerializer none)
    | some cfg =>
      .ok ([Value.null, optV cfg.request, optV cfg.exportName],
           addRefW (.buf id content) W)
  | .str s => .ok ([.str s], addRefW (.str s) W)
  | .null => .ok ([Value.null, Value.num 1], W)
  | u => .ok ([u], W)

/-- The serialization loop `for (const item of data) process(item)`, also
used by the field-list capability's sink (which processes each written
sub-value with the same algorithm). -/
def processList (reg : Registry) (vs : List Value) (W : WState) :
    Except SErr (List Value × WState) :=
  match vs with
  | [] => .ok ([], W)
  | v :: rest =>
    match process reg v W with
    | .error e => .error e
    | .ok (o1, W1) =>
      match processList reg rest W1 with
      | .error e => .error e
      | .ok (o2, W2) => .ok (o1 ++ o2, W2)
end

/-- The initial (per-call) write state. -/
def W0 : WState := ⟨[], 0⟩

/-- The initial (per-call) read state. -/
def S0 : RState := ⟨[], 0⟩

/-- JS `ObjectMiddleware.serialize(data)`: process every top-level item
starting from fresh per-call tables and return the pushed stream. -/
def serialize (reg : Registry) (data : List Value) : Except SErr (List Value) :=
  match processList reg data W0 with
  | .error e => .error e
  | .ok (out, _) => .ok out

/-- The raw export-name stream item interpreted as a key of the global
serializer map (`globalSerializers.get(exportName)`); JS map keys here
are the registered names (strings or `null`).  Any other item kind
cannot match a registered key. -/
def valueToGKey : Value → Option (Option String)
  | .null => some none
  | .str s => some (some s)
  | _ => none

/-- The truthiness test `if (exportName) requestValue =
requestValue[exportName]` applied to the raw export-name item: a
non-empty string selects that export, `null` and the empty string do
not.  (Other item kinds only occur on malformed streams and are modelled
as selecting nothing.) -/
def exportTruthy : Value → Option String
  | .str s => if s = "" then none else some s
  | _ => none

/-- Capability resolution inside `decodeValue`'s object branch: a `null`
request uses the global serializer map; a string request loads the module
(`resolve`, modelling `require`) and looks the resolved constructor up in
the per-type table (`No deserializer registered` on a miss). -/
def resolveCap (reg : Registry) (reqItem expItem : Value) : Except DErr Capability :=
  match reqItem with
  | .null =>
    match valueToGKey expItem with
    | some k =>
      match lookupG reg.globals k with
      | some cap => .ok cap
      | none => .error .noDeserializer
    | none => .error .noDeserializer
  | .str req =>
    match reg.resolve req (exportTruthy expItem) with
    | none => .error .noDeserializer
    | some ck =>
      match lookupT reg.types ck with
      | some cfg => .ok cfg.cap
      | none => .error .noDeserializer
  | _ => .error .noDeserializer

mutual
/-- JS `decodeValue()` inside `ObjectMiddleware.deserialize`, written
over the remaining input list (the read cursor) with explicit recursion
fuel (`deserialize` supplies enough fuel for any input; `.error .fuel`
is unreachable from it).  `read()` past the end of the input throws
`Unexpected end of stream`.  After the escape sentinel: the literal `1`
returns the sentinel itself; a number `k` is a relative back-reference
returning `referenceable.get(currentPos + k)` — a miss yields JS
`undefined` (`Value.undef`), there is no error check in the source; any
other item starts an object section: the export name is read, the
capability resolved, its `arity` sub-values are decoded recursively, and
the reconstructed object is registered after its children at the current
position (which also serves as the fresh object's identity).  A plain
string or buffer item is registered and returned verbatim; anything else
is returned verbatim with no table effect. -/
def decodeValue (reg : Registry) (fuel : Nat) (S : RState) (data : List Value) :
    Except DErr (Value × RState × List Value) :=
  match fuel with
  | 0 => .error .fuel
  | fuel + 1 =>
    match data with
    | [] => .error .eos
    | item :: rest =>
      match item with
      | .null => decodeEscaped reg fuel S rest
      | .str s => .ok (.str s, addRefR (.str s) S, rest)
      | .buf id c => .ok (.buf id c, addRefR (.buf id c) S, rest)
      | u => .ok (u, S, rest)
termination_by (fuel, 0, 0)

/-- The part of `decodeValue` after the escape sentinel has been read
(split out of `decodeValue` for proof convenience only): the number
equality test `nextItem === ESCAPE_ESCAPE_VALUE` of the source is the
`k = 1` test of the number arm here — a non-number item never equals the
number `1`, so the branch order is preserved. -/
def decodeEscaped (reg : Registry) (fuel : Nat) (S : RState) (rest : List Value) :
    Except DErr (Value × RState × List Value) :=
  match rest with
  | [] => .error .eos
  | next :: rest2 =>
    match next with
    | .num k =>
      if k = 1 then .ok (Value.null, S, rest2)
      else .ok ((lookupR S.map ((S.pos : Int) + k)).getD .undef, S, rest2)
    | q =>
      match rest2 with
      | [] => .error .eos
      | expItem :: rest3 =>
        match resolveCap reg q expItem with
        | .error e => .error e
        | .ok cap =>
          match decodeN reg fuel cap.arity S rest3 with
          | .error e => .error e
          | .ok (vals, S2, rest4) =>
            .ok (Value.obj S2.pos cap.ctorTag vals,
                 addRefR (Value.obj S2.pos cap.ctorTag vals) S2, rest4)
termination_by (fuel, 2, 0)

/-- The field-list capability's read loop on deserialize: read `n`
sub-values through `decodeValue`. -/
def decodeN (reg : Registry) (fuel : Nat) (n : Nat) (S : RState) (data : List Value) :
    Except DErr (List Value × RState × List Value) :=
  match n with
  | 0 => .ok ([], S, data)
  | n + 1 =>
    match decodeValue reg fuel S data with
    | .error e => .error e
    | .ok (v, S1, rest) =>
      match decodeN reg fuel n S1 rest with
      | .error e => .error e
      | .ok (vs, S2, rest2) => .ok (v :: vs, S2, rest2)
termination_by (fuel, 1, n)
end

/-- The top-level loop of `ObjectMiddleware.deserialize`:
`while (currentDataPos < data.length) result.push(decodeValue())`. -/
def decodeLoop (reg : Registry) (fuel : Nat) (S : RState) (data : List Value) :
    Except DErr (List Value) :=
  match data with
  | [] => .ok []
  | _ :: _ =>
    match fuel with
    | 0 => .error .fuel
    | fuel + 1 =>
      match decodeValue reg (fuel + 1) S data with
      | .error e => .error e
      | .ok (v, S1, rest) =>
        match decodeLoop reg fuel S1 rest with
        | .error e => .error e
        | .ok vs => .ok (v :: vs)

/-- JS `ObjectMiddleware.deserialize(data)`: run the decode loop from
fresh per-call tables.  One unit of fuel is consumed per decoded value
and every decoded value consumes at least one input item, so
`data.length + 1` fuel can never run out. -/
def deserialize (reg : Registry) (data : List Value) : Except DErr (List Value) :=
  decodeLoop reg (data.length + 1) S0 data

/-- Errors thrown by `ObjectMiddleware.register`. -/
inductive RegErr where
  | duplicateGlobalName : Option String → RegErr
deriving DecidableEq

/-- JS `ObjectMiddleware.register(Constructor, request, exportName,
serializer)`.  The result is the registry state when the call returns or
throws, paired with the thrown error if any: for a global request
(`request === GLOBAL_SERIALIZER_REQUEST`, i.e. `null`) whose export name
is already registered, the function throws before touching either table;
otherwise the global table (for global requests) and the per-type table
are updated. -/
def register (C : CtorKey) (request : Option String) (exportName : Option String)
    (s : Capability) (reg : Registry) : Registry × Option RegErr :=
  match request with
  | none =>
    match lookupG reg.globals exportName with
    | some _ => (reg, some (.duplicateGlobalName exportName))
    | none =>
      ({ reg with
          globals := (exportName, s) :: reg.globals,
          types := (C, ⟨request, exportName, s⟩) :: reg.types }, none)
  | some _ =>
    ({ reg with types := (C, ⟨request, exportName, s⟩) :: reg.types }, none)

/-- JS `ObjectMiddleware.registerGlobal(Constructor, name, serializer)`:
sugar for `register` with the global request marker. -/
def registerGlobal (C : CtorKey) (name : String) (s : Capability) (reg : Registry) :
    Registry × Option RegErr :=
  register C none (some name) s reg

mutual
/-- All structured-object subvalues of a value (itself included when it
is an object). -/
def objNodes : Value → List Value
  | .obj id tag fs => .obj id tag fs :: objNodesList fs
  | _ => []

/-- All structured-object subvalues of a list of values. -/
def objNodesList : List Value → List Value
  | [] => []
  | v :: vs => objNodes v ++ objNodesList vs
end

mutual
/-- All subvalues of a value, itself included. -/
def subVals : Value → List Value
  | .obj id tag fs => .obj id tag fs :: subValsList fs
  | v => [v]

/-- All subvalues of the elements of a list of values. -/
def subValsList : List Value → List Value
  | [] => []
  | v :: vs => subVals v ++ subValsList vs
end

mutual
/-- The reconstruction `decodeValue` produces for an encoded value: every
structured object is replaced by a fresh object whose identity is the
table position the write side assigned to it (`m` is a write-side table
holding all of the value's object nodes); everything else is returned by
the decoder verbatim. -/
def rename (m : WMap) : Value → Value
  | .obj id tag fs => .obj ((lookupW m (.obj id tag fs)).getD 0) tag (renameList m fs)
  | v => v

/-- `rename` applied to each element of a list. -/
def renameList (m : WMap) : List Value → List Value
  | [] => []
  | v :: vs => rename m v :: renameList m vs
end

mutual
/-- Structural equality of object graphs up to object identity: erase
every object id. -/
def strip : Value → Value
  | .obj _ tag fs => .obj 0 tag (stripList fs)
  | v => v

/-- `strip` applied to each element of a list. -/
def stripList : List Value → List Value
  | [] => []
  | v :: vs => strip v :: stripList vs
end

/-- A well-formed object graph (a heap snapshot): two object subvalues
with the same identity are the same object, hence equal terms. -/
def wfB (g : Value) : Bool :=
  (objNodes g).all fun u =>
    (objNodes g).all fun w =>
      match u, w with
      | .obj i _ _, .obj j _ _ => decide (i ≠ j) || decide (u = w)
      | _, _ => true

/-- The capability `decodeValue` will resolve for an object section whose
header was emitted from `cfg`: the global table for a `null` request,
otherwise the module resolver followed by the per-type table. -/
def capResolvesTo (reg : Registry) (cfg : TypeConfig) : Option Capability :=
  match cfg.request with
  | none => lookupG reg.globals cfg.exportName
  | some req =>
    match reg.resolve req (exportTruthy (optV cfg.exportName)) with
    | none => none
    | some ck => (lookupT reg.types ck).map (·.cap)

/-- Runtime type `tag` with `n` fields is registered with a capability
that round-trips: the decode side resolves the emitted header back to a
capability reading exactly `n` sub-values and constructing type `tag`. -/
def coherentTagB (reg : Registry) (tag : Nat) (n : Nat) : Bool :=
  match lookupT reg.types (some tag) with
  | none => false
  | some cfg => decide (capResolvesTo reg cfg = some ⟨n, tag⟩)

mutual
/-- Every structured object in the graph has a registered, coherent
capability, and the graph contains no byte buffer (the repository
registers no serializer for `Buffer`, whose values reach the
object-serializer branch on encode). -/
def coherentB (reg : Registry) : Value → Bool
  | .obj _ tag fs => coherentTagB reg tag fs.length && coherentListB reg fs
  | .buf _ _ => false
  | _ => true

/-- `coherentB` for each element of a list. -/
def coherentListB (reg : Registry) : List Value → Bool
  | [] => true
  | v :: vs => coherentB reg v && coherentListB reg vs
end

/-- The field-list serializer helper (`PropertiesSerializer`): a
constructor producing a fresh instance, an ordered field-name list, and
an optional post-construction hook.  Instances are modelled as property
records; JS property assignment is modelled by prepending, with
`getProp` taking the newest binding (assignment overwrite semantics).
A missing property reads as JS `undefined`. -/
abbrev Rec := List (String × Value)

/-- JS property read `obj[prop]` (`undefined` when absent). -/
def getProp : Rec → String → Value
  | [], _ => .undef
  | (k, v) :: o, p => if k = p then v else getProp o p

/-- JS property assignment `obj[prop] = v`. -/
def setProp (o : Rec) (p : String) (v : Value) : Rec := (p, v) :: o

/-- The `PropertiesSerializer` configuration: `ctor` is the instance
`new this.Constructor()` produces, `properties` the ordered field list,
`onRestored` the optional post-construction hook (modelled as the
transformation it applies to the instance it is handed). -/
structure PropSerializer where
  ctor : Rec
  properties : List String
  onRestored : Option (Rec → Rec)

/-- The write loop of `PropertiesSerializer.serialize`. -/
def psWriteFields : List String → Rec → List Value
  | [], _ => []
  | p :: ps, o => getProp o p :: psWriteFields ps o

/-- `PropertiesSerializer.serialize`: write each named field's current
value, in list order, via the sink (the emitted write sequence). -/
def psSerialize (S : PropSerializer) (o : Rec) : List Value :=
  psWriteFields S.properties o

/-- The read-and-assign loop of `PropertiesSerializer.deserialize`:
assign each listed property from the source in order, returning the
populated instance and the unconsumed source items. -/
def psReadFields : List String → Rec → List Value → Rec × List Value
  | [], o, src => (o, src)
  | p :: ps, o, src =>
    match src with
    | [] => psReadFields ps (setProp o p .undef) []
    | v :: src' => psReadFields ps (setProp o p v) src'

/-- `PropertiesSerializer.deserialize`: create a fresh instance, assign
each listed field from the source in order, then invoke the
post-construction hook (if present) on the populated instance before
returning it.  Also returns the unconsumed source items. -/
def psDeserialize (S : PropSerializer) (src : List Value) : Rec × List Value :=
  match psReadFields S.properties S.ctor src with
  | (o, rest) =>
    match S.onRestored with
    | some h => (h o, rest)
    | none => (o, rest)

/-- A JavaScript value or promise as returned by a middleware stage:
`now a` is a plain value, `promise a` a promise that will resolve to
`a`.  (Rejection is not modelled; no claim concerns a failing stage.) -/
inductive PVal (α : Type) where
  | now : α → PVal α
  | promise : α → PVal α

/-- The value a `PVal` holds or resolves to. -/
def PVal.val : PVal α → α
  | .now a => a
  | .promise a => a

/-- JS `p.then(f)`: the result is a promise resolving to the (flattened)
result of applying `f` once `p`'s value is available. -/
def PVal.andThen (p : PVal α) (f : α → PVal β) : PVal β :=
  .promise (f p.val).val

/-- JS `Promise.resolve(x)`: `x` itself if it is a promise, otherwise a
promise resolved with `x`. -/
def presolve : PVal α → PVal α
  | .now a => .promise a
  | .promise a => .promise a

/-- One middleware stage of the pipeline runner: `fwd` is its
`serialize(data, context)`, `bwd` its `deserialize(data, context)`,
either of which may return a plain value or a promise. -/
structure Middleware where
  fwd : List Value → String → PVal (List Value)
  bwd : List Value → String → PVal (List Value)

/-- One step of the `reduce` in `Serializer.serializeToFile`: wait for
the previous stage's promise if there is one, then run this stage. -/
def stepFwd (ctx : String) (last : PVal (List Value)) (m : Middleware) : PVal (List Value) :=
  match last with
  | .promise a => PVal.andThen (.promise a) (fun data => m.fwd data ctx)
  | .now a => m.fwd a ctx

/-- One step of the `reduce` in `Serializer.deserializeFromFile`. -/
def stepBwd (ctx : String) (last : PVal (List Value)) (m : Middleware) : PVal (List Value) :=
  match last with
  | .promise a => PVal.andThen (.promise a) (fun data => m.bwd data ctx)
  | .now a => m.bwd a ctx

/-- JS `Serializer.serializeToFile(obj, filename)`: wrap the root object
in a single-element array and fold each middleware's `serialize` over it
left to right, chaining promises, the whole result wrapped in
`Promise.resolve`. -/
def serializeToFile (mws : List Middleware) (obj : Value) (filename : String) :
    PVal (List Value) :=
  presolve (mws.foldl (stepFwd filename) (.now [obj]))

/-- JS `Serializer.deserializeFromFile(filename)`: fold each
middleware's `deserialize` over the reversed stage list starting from an
empty array, then `.then(array => array[0])` (JS indexing an empty array
yields `undefined`). -/
def deserializeFromFile (mws : List Middleware) (filename : String) : PVal Value :=
  PVal.andThen (presolve (mws.reverse.foldl (stepBwd filename) (.now [])))
    (fun array => .now (array.headD .undef))

/-- Mutual structural induction for `Value` and `List Value` (the nested
recursion prevents use of the default recursor in tactic proofs). -/
theorem valueInd (P : Value → Prop) (Q : List Value → Prop)
    (hnil : Q [])
    (hcons : ∀ v vs, P v → Q vs → Q (v :: vs))
    (hobj : ∀ id tag fs, Q fs → P (.obj id tag fs))
    (hother : ∀ v, (∀ id tag fs, v ≠ .obj id tag fs) → P v) :
    (∀ v, P v) ∧ (∀ vs, Q vs) := by
  have key : ∀ n, (∀ v : Value, sizeOf v ≤ n → P v) ∧
      (∀ vs : List Value, sizeOf vs ≤ n → Q vs) := by
    intro n
    induction n with
    | zero =>
      constructor
      · intro v h; cases v <;> simp at h
      · intro vs h; cases vs <;> simp at h
    | succ n ih =>
      constructor
      · intro v h
        match v with
        | .obj id tag fs =>
          apply hobj
          apply ih.2
          simp at h
          omega
        | .null | .undef | .num _ | .boolV _ | .str _ | .buf _ _ =>
          exact hother _ (fun _ _ _ hne => Value.noConfusion hne)
      · intro vs h
        match vs with
        | [] => exact hnil
        | v :: rest =>
          simp at h
          exact hcons v rest (ih.1 v (by omega)) (ih.2 rest (by omega))
  exact ⟨fun v => (key (sizeOf v)).1 v le_rfl, fun vs => (key (sizeOf vs)).2 vs le_rfl⟩

/-- Subvalues are no larger than the value containing them. -/
theorem sizeOf_subVals :
    (∀ v : Value, ∀ u ∈ subVals v, sizeOf u ≤ sizeOf v) ∧
    (∀ vs : List Value, ∀ u ∈ subValsList vs, sizeOf u < sizeOf vs) := by
  apply valueInd (fun v => ∀ u ∈ subVals v, sizeOf u ≤ sizeOf v)
      (fun vs => ∀ u ∈ subValsList vs, sizeOf u < sizeOf vs)
  · intro u hu; simp [subValsList] at hu
  · intro v vs hv hvs u hu
    simp only [subValsList, List.mem_append] at hu
    rcases hu with hu | hu
    · have := hv u hu; simp; omega
    · have := hvs u hu; simp; omega
  · intro id tag fs hfs u hu
    simp only [subVals, List.mem_cons] at hu
    rcases hu with rfl | hu
    · exact le_rfl
    · have := hfs u hu; simp; omega
  · intro v hv u hu
    have hs : subVals v = [v] := by
      cases v <;> first | rfl | exact absurd rfl (hv _ _ _)
    rw [hs] at hu
    simp at hu
    subst hu
    exact le_rfl

/-- A value that is not a structured object is left unchanged by
`rename`. -/
theorem rename_nonobj (m : WMap) (v : Value)
    (h : ∀ id tag fs, v ≠ Value.obj id tag fs) : rename m v = v := by
  cases v <;> first | rfl | exact absurd rfl (h _ _ _)

/-- A value that is not a structured object has no object nodes. -/
theorem objNodes_nonobj (v : Value)
    (h : ∀ id tag fs, v ≠ Value.obj id tag fs) : objNodes v = [] := by
  cases v <;> first | rfl | exact absurd rfl (h _ _ _)

/-- Identity erasure commutes with the decoder's renaming: the decoded
graph is structurally equal to the original. -/
theorem strip_rename :
    (∀ v : Value, ∀ m, strip (rename m v) = strip v) ∧
    (∀ vs : List Value, ∀ m, stripList (renameList m vs) = stripList vs) := by
  apply valueInd (fun v => ∀ m, strip (rename m v) = strip v)
      (fun vs => ∀ m, stripList (renameList m vs) = stripList vs)
  · intro m; rfl
  · intro v vs hv hvs m
    simp [renameList, stripList, hv m, hvs m]
  · intro id tag fs hfs m
    simp [rename, strip, hfs m]
  · intro v hv m
    rw [rename_nonobj m v hv]

/-- Bindings survive a table extension (new bindings never shadow: every
key is added at most once). -/
def Preserves (m m' : WMap) : Prop :=
  ∀ k p, lookupW m k = some p → lookupW m' k = some p

theorem Preserves.rfl (m : WMap) : Preserves m m := fun _ _ h => h

theorem Preserves.comp {m1 m2 m3 : WMap} (h1 : Preserves m1 m2)
    (h2 : Preserves m2 m3) : Preserves m1 m3 :=
  fun k p h => h2 k p (h1 k p h)

/-- Adding a binding for a key absent from the table preserves all
existing bindings. -/
theorem preserves_addFresh {m : WMap} {v : Value} (p : Nat)
    (h : lookupW m v = none) : Preserves m ((v, p) :: m) := by
  intro k q hk
  simp only [lookupW]
  by_cases hvk : v = k
  · subst hvk; rw [h] at hk; exact absurd hk (by simp)
  · simp [hvk, hk]

/-- All object nodes of a value are bound in the table. -/
def NodesIn (m : WMap) (v : Value) : Prop :=
  ∀ u ∈ objNodes v, lookupW m u ≠ none

/-- All object nodes of a list of values are bound in the table. -/
def NodesInL (m : WMap) (vs : List Value) : Prop :=
  ∀ u ∈ objNodesList vs, lookupW m u ≠ none

theorem nodesIn_mono {m m' : WMap} {v : Value} (hp : Preserves m m')
    (h : NodesIn m v) : NodesIn m' v := by
  intro u hu
  rcases Option.ne_none_iff_exists'.1 (h u hu) with ⟨p, hval⟩
  rw [hp u p hval]
  simp

theorem nodesInL_mono {m m' : WMap} {vs : List Value} (hp : Preserves m m')
    (h : NodesInL m vs) : NodesInL m' vs := by
  intro u hu
  rcases Option.ne_none_iff_exists'.1 (h u hu) with ⟨p, hval⟩
  rw [hp u p hval]
  simp

/-- Renaming is determined by the bindings of the value's own object
nodes: extending the table does not change it. -/
theorem rename_stable :
    (∀ v : Value, ∀ m m', Preserves m m' → NodesIn m v → rename m' v = rename m v) ∧
    (∀ vs : List Value, ∀ m m', Preserves m m' → NodesInL m vs →
      renameList m' vs = renameList m vs) := by
  apply valueInd
      (fun v => ∀ m m', Preserves m m' → NodesIn m v → rename m' v = rename m v)
      (fun vs => ∀ m m', Preserves m m' → NodesInL m vs →
        renameList m' vs = renameList m vs)
  · intro m m' _ _; rfl
  · intro v vs hv hvs m m' hp h
    have h1 : NodesIn m v := fun u hu => h u (by simp [objNodesList, hu])
    have h2 : NodesInL m vs := fun u hu => h u (by simp [objNodesList, hu])
    simp [renameList, hv m m' hp h1, hvs m m' hp h2]
  · intro id tag fs hfs m m' hp h
    have hself : lookupW m (.obj id tag fs) ≠ none := h _ (by simp [objNodes])
    rcases Option.ne_none_iff_exists'.1 hself with ⟨p, hval⟩
    have hfs' : NodesInL m fs := fun u hu => h u (by simp [objNodes, hu])
    simp only [rename, hval, hp _ _ hval]
    rw [hfs m m' hp hfs']
  · intro v hv m m' _ _
    rw [rename_nonobj m v hv, rename_nonobj m' v hv]

/-- A referenceable-table hit emits a two-item relative back-reference. -/
theorem process_hit (reg : Registry) (v : Value) (W : WState) (r : Nat)
    (h : lookupW W.map v = some r) :
    process reg v W = .ok ([Value.null, Value.num ((r : Int) - (W.pos : Int))], W) := by
  rw [process.eq_def, h]

/-- A referenceable-table miss dispatches on the kind of the value. -/
theorem process_miss (reg : Registry) (v : Value) (W : WState)
    (h : lookupW W.map v = none) :
    process reg v W = processNew reg v W := by
  rw [process.eq_def, h]

/-- Reading the escape sentinel hands over to the escaped-item cases. -/
theorem decode_escape (reg : Registry) (f : Nat) (S : RState) (rest : List Value) :
    decodeValue reg (f + 1) S (Value.null :: rest) = decodeEscaped reg f S rest := by
  rw [decodeValue.eq_def]

/-- A plain string item is registered and returned verbatim. -/
theorem decode_str (reg : Registry) (f : Nat) (S : RState) (s : String) (rest : List Value) :
    decodeValue reg (f + 1) S (Value.str s :: rest) =
      .ok (Value.str s, addRefR (.str s) S, rest) := by
  rw [decodeValue.eq_def]

/-- A plain buffer item is registered and returned verbatim. -/
theorem decode_buf (reg : Registry) (f : Nat) (S : RState) (id : Nat) (c : List Nat)
    (rest : List Value) :
    decodeValue reg (f + 1) S (Value.buf id c :: rest) =
      .ok (Value.buf id c, addRefR (.buf id c) S, rest) := by
  rw [decodeValue.eq_def]

/-- A number item is returned verbatim with no table effect. -/
theorem decode_num (reg : Registry) (f : Nat) (S : RState) (n : Int) (rest : List Value) :
    decodeValue reg (f + 1) S (Value.num n :: rest) = .ok (Value.num n, S, rest) := by
  rw [decodeValue.eq_def]

/-- A boolean item is returned verbatim with no table effect. -/
theorem decode_bool (reg : Registry) (f : Nat) (S : RState) (b : Bool) (rest : List Value) :
    decodeValue reg (f + 1) S (Value.boolV b :: rest) = .ok (Value.boolV b, S, rest) := by
  rw [decodeValue.eq_def]

/-- An `undefined` item is returned verbatim with no table effect. -/
theorem decode_undef (reg : Registry) (f : Nat) (S : RState) (rest : List Value) :
    decodeValue reg (f + 1) S (Value.undef :: rest) = .ok (Value.undef, S, rest) := by
  rw [decodeValue.eq_def]

/-- Reading from an exhausted input raises `Unexpected end of stream`. -/
theorem decode_eos (reg : Registry) (f : Nat) (S : RState) :
    decodeValue reg (f + 1) S [] = .error .eos := by
  rw [decodeValue.eq_def]

/-- The input ending right after the escape sentinel raises
`Unexpected end of stream`. -/
theorem escaped_eos (reg : Registry) (f : Nat) (S : RState) :
    decodeEscaped reg f S [] = .error .eos := by
  rw [decodeEscaped.eq_def]

/-- The escaped literal `1` decodes to the sentinel value itself, with
no table effect. -/
theorem decode_escape_escape (reg : Registry) (f : Nat) (S : RState) (rest : List Value) :
    decodeEscaped reg f S (Value.num 1 :: rest) = .ok (Value.null, S, rest) := by
  rw [decodeEscaped.eq_def]
  simp

/-- An escaped number other than `1` is a relative back-reference,
looked up in the read-side table; a miss yields JS `undefined`. -/
theorem decode_backref (reg : Registry) (f : Nat) (S : RState) (k : Int) (rest : List Value)
    (hk : k ≠ 1) :
    decodeEscaped reg f S (Value.num k :: rest) =
      .ok ((lookupR S.map ((S.pos : Int) + k)).getD .undef, S, rest) := by
  rw [decodeEscaped.eq_def]
  simp [hk]

/-- An escaped non-number item starts an object section: resolve the
capability from the request and export-name items, decode its sub-values
and register the reconstructed object after them. -/
theorem decode_header (reg : Registry) (f : Nat) (S : RState) (q e : Value)
    (rest : List Value) (hq : q = Value.null ∨ ∃ s, q = Value.str s) :
    decodeEscaped reg f S (q :: e :: rest) =
      (match resolveCap reg q e with
       | .error err => .error err
       | .ok cap =>
         match decodeN reg f cap.arity S rest with
         | .error err => .error err
         | .ok (vals, S2, rest4) =>
           .ok (Value.obj S2.pos cap.ctorTag vals,
                addRefR (Value.obj S2.pos cap.ctorTag vals) S2, rest4)) := by
  rcases hq with rfl | ⟨s, rfl⟩ <;> rw [decodeEscaped.eq_def]

/-- The input ending right after an object-section request item raises
`Unexpected end of stream`. -/
theorem escaped_header_eos (reg : Registry) (f : Nat) (S : RState) (q : Value)
    (hq : q = Value.null ∨ ∃ s, q = Value.str s) :
    decodeEscaped reg f S [q] = .error .eos := by
  rcases hq with rfl | ⟨s, rfl⟩ <;> rw [decodeEscaped.eq_def]

/-- Every table position is below the current position counter. -/
def WBoundP (W : WState) : Prop :=
  ∀ k p, lookupW W.map k = some p → p < W.pos

/-- Every key of the table has all of its object nodes in the table. -/
def DomClosed (m : WMap) : Prop :=
  ∀ k p, lookupW m k = some p → NodesIn m k

theorem lookupW_self (m : WMap) (v : Value) (p : Nat) :
    lookupW ((v, p) :: m) v = some p := by
  simp [lookupW]

theorem lookupW_cons (m : WMap) (v k : Value) (p : Nat) :
    lookupW ((v, p) :: m) k = if v = k then some p else lookupW m k := rfl

/-- The subvalues of a non-object value are just the value itself. -/
theorem subVals_nonobj (v : Value) (h : ∀ id tag fs, v ≠ Value.obj id tag fs) :
    subVals v = [v] := by
  cases v <;> first | rfl | exact absurd rfl (h _ _ _)


/-- Inversion: processing an empty list emits nothing and keeps the
state. -/
theorem processList_nil_inv {reg : Registry} {W : WState} {out : List Value} {W' : WState}
    (h : processList reg [] W = .ok (out, W')) : out = [] ∧ W' = W := by
  rw [processList.eq_def] at h
  simp only [Except.ok.injEq, Prod.mk.injEq] at h
  exact ⟨h.1.symm ▸ rfl, h.2.symm ▸ rfl⟩

/-- Inversion of the serialization loop on a non-empty list. -/
theorem processList_cons_inv {reg : Registry} {v : Value} {vs : List Value} {W : WState}
    {out : List Value} {W' : WState}
    (h : processList reg (v :: vs) W = .ok (out, W')) :
    ∃ o1 W1 o2, process reg v W = .ok (o1, W1) ∧
      processList reg vs W1 = .ok (o2, W') ∧ out = o1 ++ o2 := by
  rw [processList.eq_def] at h
  simp only at h
  split at h
  · exact absurd h (by simp)
  · split at h
    · exact absurd h (by simp)
    · simp only [Except.ok.injEq, Prod.mk.injEq] at h
      rename_i x1 o1 W1 heq1 x2 o2 W2 heq2
      exact ⟨o1, W1, o2, heq1, h.2 ▸ heq2, h.1.symm⟩

/-- Inversion of `process`: either a back-reference from a table hit, or
the branches for an unregistered value. -/
theorem process_inv {reg : Registry} {v : Value} {W : WState} {out : List Value} {W' : WState}
    (h : process reg v W = .ok (out, W')) :
    (∃ r, lookupW W.map v = some r ∧
      out = [Value.null, Value.num ((r : Int) - (W.pos : Int))] ∧ W' = W) ∨
    (lookupW W.map v = none ∧ processNew reg v W = .ok (out, W')) := by
  rw [process.eq_def] at h
  split at h
  · simp only [Except.ok.injEq, Prod.mk.injEq] at h
    rename_i x1 r heq
    exact Or.inl ⟨r, heq, h.1.symm, h.2.symm⟩
  · rename_i heq
    exact Or.inr ⟨heq, h⟩

/-- Inversion of the object branch of `process`. -/
theorem processNew_obj_inv {reg : Registry} {id tag : Nat} {fs : List Value} {W : WState}
    {out : List Value} {W' : WState}
    (h : processNew reg (.obj id tag fs) W = .ok (out, W')) :
    ∃ cfg o1 W1, lookupT reg.types (some tag) = some cfg ∧
      processList reg fs W = .ok (o1, W1) ∧
      out = Value.null :: optV cfg.request :: optV cfg.exportName :: o1 ∧
      W' = addRefW (.obj id tag fs) W1 := by
  rw [processNew.eq_def] at h
  simp only at h
  split at h
  · exact absurd h (by simp)
  · split at h
    · exact absurd h (by simp)
    · simp only [Except.ok.injEq, Prod.mk.injEq] at h
      rename_i x1 cfg heq1 x2 o1 W1 heq2
      exact ⟨cfg, o1, W1, heq1, heq2, h.1.symm, h.2.symm⟩

/-- Inversion of the buffer case of `process` (a byte buffer is `typeof
"object"` and is serialized through the object branch). -/
theorem processNew_buf_inv {reg : Registry} {id : Nat} {c : List Nat} {W : WState}
    {out : List Value} {W' : WState}
    (h : processNew reg (.buf id c) W = .ok (out, W')) :
    ∃ cfg, lookupT reg.types none = some cfg ∧
      out = [Value.null, optV cfg.request, optV cfg.exportName] ∧
      W' = addRefW (.buf id c) W := by
  rw [processNew.eq_def] at h
  simp only at h
  split at h
  · exact absurd h (by simp)
  · simp only [Except.ok.injEq, Prod.mk.injEq] at h
    rename_i x1 cfg heq
    exact ⟨cfg, heq, h.1.symm, h.2.symm⟩

/-- A string with no table entry is registered and emitted verbatim. -/
theorem processNew_str (reg : Registry) (s : String) (W : WState) :
    processNew reg (.str s) W = .ok ([.str s], addRefW (.str s) W) := by
  rw [processNew.eq_def]

/-- The escape sentinel as data is emitted as the escaped-escape pair. -/
theorem processNew_null (reg : Registry) (W : WState) :
    processNew reg .null W = .ok ([Value.null, Value.num 1], W) := by
  rw [processNew.eq_def]

/-- A number is emitted verbatim with no table effect. -/
theorem processNew_num (reg : Registry) (n : Int) (W : WState) :
    processNew reg (.num n) W = .ok ([.num n], W) := by
  rw [processNew.eq_def]

/-- A boolean is emitted verbatim with no table effect. -/
theorem processNew_bool (reg : Registry) (b : Bool) (W : WState) :
    processNew reg (.boolV b) W = .ok ([.boolV b], W) := by
  rw [processNew.eq_def]

/-- The `undefined` value is emitted verbatim with no table effect. -/
theorem processNew_undef (reg : Registry) (W : WState) :
    processNew reg .undef W = .ok ([.undef], W) := by
  rw [processNew.eq_def]

/-- Forward rule for the object branch of `process`. -/
theorem process_obj (reg : Registry) {id tag : Nat} {fs : List Value} {W : WState}
    {cfg : TypeConfig} {o1 : List Value} {W1 : WState}
    (hl : lookupW W.map (.obj id tag fs) = none)
    (ht : lookupT reg.types (some tag) = some cfg)
    (h1 : processList reg fs W = .ok (o1, W1)) :
    process reg (.obj id tag fs) W =
      .ok (Value.null :: optV cfg.request :: optV cfg.exportName :: o1,
           addRefW (.obj id tag fs) W1) := by
  rw [process_miss reg _ W hl, processNew.eq_def]
  simp only [ht, h1]

/-- Forward rule for the serialization loop on a non-empty list. -/
theorem processList_cons (reg : Registry) {v : Value} {vs : List Value} {W : WState}
    {o1 : List Value} {W1 : WState} {o2 : List Value} {W2 : WState}
    (h1 : process reg v W = .ok (o1, W1))
    (h2 : processList reg vs W1 = .ok (o2, W2)) :
    processList reg (v :: vs) W = .ok (o1 ++ o2, W2) := by
  rw [processList.eq_def]
  simp only [h1, h2]

/-- Forward rule for the serialization loop on the empty list. -/
theorem processList_nil (reg : Registry) (W : WState) :
    processList reg [] W = .ok ([], W) := by
  rw [processList.eq_def]

/-- The facts the write side guarantees, per processed value: positions
grow, existing bindings survive, every new key is a subvalue of the
processed value, table positions stay below the position counter, node
closure is maintained and the processed value's own object nodes end up
in the table; the emitted segment is never empty. -/
theorem encodeFacts :
    (∀ v : Value, ∀ reg W out W', process reg v W = .ok (out, W') →
      W.pos ≤ W'.pos ∧ Preserves W.map W'.map ∧
      (∀ k, lookupW W'.map k ≠ none → lookupW W.map k ≠ none ∨ k ∈ subVals v) ∧
      (WBoundP W → WBoundP W') ∧
      (DomClosed W.map → DomClosed W'.map ∧ NodesIn W'.map v) ∧
      out ≠ []) ∧
    (∀ vs : List Value, ∀ reg W out W', processList reg vs W = .ok (out, W') →
      W.pos ≤ W'.pos ∧ Preserves W.map W'.map ∧
      (∀ k, lookupW W'.map k ≠ none → lookupW W.map k ≠ none ∨ k ∈ subValsList vs) ∧
      (WBoundP W → WBoundP W') ∧
      (DomClosed W.map → DomClosed W'.map ∧ NodesInL W'.map vs)) := by
  have addRefFacts : ∀ (v : Value) (W1 : WState), lookupW W1.map v = none →
      W1.pos ≤ (addRefW v W1).pos ∧ Preserves W1.map (addRefW v W1).map ∧
      (∀ k, lookupW (addRefW v W1).map k ≠ none → lookupW W1.map k ≠ none ∨ k = v) ∧
      (WBoundP W1 → WBoundP (addRefW v W1)) := by
    intro v W1 hfresh
    refine ⟨by simp [addRefW], preserves_addFresh W1.pos hfresh, ?_, ?_⟩
    · intro k hk
      rw [show (addRefW v W1).map = (v, W1.pos) :: W1.map from rfl, lookupW_cons] at hk
      by_cases hvk : v = k
      · exact Or.inr hvk.symm
      · rw [if_neg hvk] at hk; exact Or.inl hk
    · intro hb k p hk
      rw [show (addRefW v W1).map = (v, W1.pos) :: W1.map from rfl, lookupW_cons] at hk
      by_cases hvk : v = k
      · rw [if_pos hvk] at hk
        simp only [Option.some.injEq] at hk
        subst hk
        simp [addRefW]
      · rw [if_neg hvk] at hk
        have := hb k p hk
        simp only [addRefW]
        omega
  apply valueInd
      (fun v => ∀ reg W out W', process reg v W = .ok (out, W') →
        W.pos ≤ W'.pos ∧ Preserves W.map W'.map ∧
        (∀ k, lookupW W'.map k ≠ none → lookupW W.map k ≠ none ∨ k ∈ subVals v) ∧
        (WBoundP W → WBoundP W') ∧
        (DomClosed W.map → DomClosed W'.map ∧ NodesIn W'.map v) ∧
        out ≠ [])
      (fun vs => ∀ reg W out W', processList reg vs W = .ok (out, W') →
        W.pos ≤ W'.pos ∧ Preserves W.map W'.map ∧
        (∀ k, lookupW W'.map k ≠ none → lookupW W.map k ≠ none ∨ k ∈ subValsList vs) ∧
        (WBoundP W → WBoundP W') ∧
        (DomClosed W.map → DomClosed W'.map ∧ NodesInL W'.map vs))
  · -- empty list
    intro reg W out W' h
    obtain ⟨rfl, rfl⟩ := processList_nil_inv h
    refine ⟨le_rfl, Preserves.rfl _, fun k hk => Or.inl hk, fun hb => hb, fun hd => ⟨hd, ?_⟩⟩
    intro u hu; simp [objNodesList] at hu
  · -- cons
    intro v vs ihv ihvs reg W out W' h
    obtain ⟨o1, W1, o2, h1, h2, rfl⟩ := processList_cons_inv h
    obtain ⟨p1, pr1, nk1, wb1, dc1, -⟩ := ihv reg W o1 W1 h1
    obtain ⟨p2, pr2, nk2, wb2, dc2⟩ := ihvs reg W1 o2 W' h2
    refine ⟨le_trans p1 p2, Preserves.comp pr1 pr2, ?_, fun hb => wb2 (wb1 hb), ?_⟩
    · intro k hk
      rcases nk2 k hk with hk1 | hk1
      · rcases nk1 k hk1 with hk0 | hk0
        · exact Or.inl hk0
        · exact Or.inr (by simp [subValsList, hk0])
      · exact Or.inr (by simp [subValsList, hk1])
    · intro hd
      obtain ⟨hd1, hn1⟩ := dc1 hd
      obtain ⟨hd2, hn2⟩ := dc2 hd1
      refine ⟨hd2, ?_⟩
      intro u hu
      simp only [objNodesList, List.mem_append] at hu
      rcases hu with hu | hu
      · exact (nodesIn_mono pr2 hn1) u hu
      · exact hn2 u hu
  · -- structured object
    intro id tag fs ihfs reg W out W' h
    rcases process_inv h with ⟨r, hl, rfl, rfl⟩ | ⟨hl, hnew⟩
    · -- table hit: back-reference, no state change
      refine ⟨le_rfl, Preserves.rfl _, fun k hk => Or.inl hk, fun hb => hb,
        fun hd => ⟨hd, hd _ _ hl⟩, by simp⟩
    · obtain ⟨cfg, o1, W1, ht, h1, rfl, rfl⟩ := processNew_obj_inv hnew
      obtain ⟨p1, pr1, nk1, wb1, dc1⟩ := ihfs reg W o1 W1 h1
      have hfresh : lookupW W1.map (Value.obj id tag fs) = none := by
        by_contra hne
        rcases nk1 _ hne with h0 | h0
        · rw [hl] at h0; exact h0 rfl
        · have hsz := sizeOf_subVals.2 fs _ h0
          simp at hsz
      obtain ⟨pA, prA, nkA, wbA⟩ := addRefFacts (Value.obj id tag fs) W1 hfresh
      refine ⟨le_trans p1 pA, Preserves.comp pr1 prA, ?_, fun hb => wbA (wb1 hb), ?_, by simp⟩
      · intro k hk
        rcases nkA k hk with hk1 | rfl
        · rcases nk1 k hk1 with hk0 | hk0
          · exact Or.inl hk0
          · exact Or.inr (by simp [subVals, hk0])
        · exact Or.inr (by simp [subVals])
      · intro hd
        obtain ⟨hd1, hn1⟩ := dc1 hd
        have hself : NodesIn (addRefW (Value.obj id tag fs) W1).map (Value.obj id tag fs) := by
          intro u hu
          simp only [objNodes, List.mem_cons] at hu
          rcases hu with rfl | hu
          · rw [show (addRefW (Value.obj id tag fs) W1).map
                  = (Value.obj id tag fs, W1.pos) :: W1.map from rfl, lookupW_self]
            simp
          · exact (nodesInL_mono prA hn1) u hu
        refine ⟨?_, hself⟩
        intro k p hk
        rw [show (addRefW (Value.obj id tag fs) W1).map
              = (Value.obj id tag fs, W1.pos) :: W1.map from rfl, lookupW_cons] at hk
        by_cases hvk : Value.obj id tag fs = k
        · subst hvk; exact hself
        · rw [if_neg hvk] at hk
          exact nodesIn_mono prA (hd1 k p hk)
  · -- every non-object value
    intro v hv reg W out W' h
    have hnodes : objNodes v = [] := objNodes_nonobj v hv
    rcases process_inv h with ⟨r, hl, rfl, rfl⟩ | ⟨hl, hnew⟩
    · refine ⟨le_rfl, Preserves.rfl _, fun k hk => Or.inl hk, fun hb => hb,
        fun hd => ⟨hd, hd _ _ hl⟩, by simp⟩
    · have registered : ∀ out1, out = out1 → W' = addRefW v W → out1 ≠ [] →
          W.pos ≤ W'.pos ∧ Preserves W.map W'.map ∧
          (∀ k, lookupW W'.map k ≠ none → lookupW W.map k ≠ none ∨ k ∈ subVals v) ∧
          (WBoundP W → WBoundP W') ∧
          (DomClosed W.map → DomClosed W'.map ∧ NodesIn W'.map v) ∧ out ≠ [] := by
        rintro out1 rfl rfl hne
        obtain ⟨pA, prA, nkA, wbA⟩ := addRefFacts v W hl
        refine ⟨pA, prA, ?_, wbA, ?_, hne⟩
        · intro k hk
          rcases nkA k hk with hk1 | hke
          · exact Or.inl hk1
          · exact Or.inr (by rw [hke, subVals_nonobj v hv]; simp)
        · intro hd
          have hni : NodesIn (addRefW v W).map v := by
            intro u hu; rw [hnodes] at hu; simp at hu
          refine ⟨?_, hni⟩
          intro k p hk
          rw [show (addRefW v W).map = (v, W.pos) :: W.map from rfl, lookupW_cons] at hk
          by_cases hvk : v = k
          · subst hvk; exact hni
          · rw [if_neg hvk] at hk
            exact nodesIn_mono prA (hd k p hk)
      have unchanged : ∀ out1, out = out1 → W' = W → out1 ≠ [] →
          W.pos ≤ W'.pos ∧ Preserves W.map W'.map ∧
          (∀ k, lookupW W'.map k ≠ none → lookupW W.map k ≠ none ∨ k ∈ subVals v) ∧
          (WBoundP W → WBoundP W') ∧
          (DomClosed W.map → DomClosed W'.map ∧ NodesIn W'.map v) ∧ out ≠ [] := by
        rintro out1 rfl rfl hne
        refine ⟨le_rfl, Preserves.rfl _, fun k hk => Or.inl hk, fun hb => hb, ?_, hne⟩
        intro hd
        refine ⟨hd, ?_⟩
        intro u hu; rw [hnodes] at hu; simp at hu
      cases v with
      | null =>
        rw [processNew_null] at hnew
        simp only [Except.ok.injEq, Prod.mk.injEq] at hnew
        exact unchanged _ hnew.1.symm hnew.2.symm (by simp)
      | undef =>
        rw [processNew_undef] at hnew
        simp only [Except.ok.injEq, Prod.mk.injEq] at hnew
        exact unchanged _ hnew.1.symm hnew.2.symm (by simp)
      | num n =>
        rw [processNew_num] at hnew
        simp only [Except.ok.injEq, Prod.mk.injEq] at hnew
        exact unchanged _ hnew.1.symm hnew.2.symm (by simp)
      | boolV b =>
        rw [processNew_bool] at hnew
        simp only [Except.ok.injEq, Prod.mk.injEq] at hnew
        exact unchanged _ hnew.1.symm hnew.2.symm (by simp)
      | str s =>
        rw [processNew_str] at hnew
        simp only [Except.ok.injEq, Prod.mk.injEq] at hnew
        exact registered _ hnew.1.symm hnew.2.symm (by simp)
      | buf id c =>
        obtain ⟨cfg, ht, rfl, rfl⟩ := processNew_buf_inv hnew
        exact registered _ rfl rfl (by simp)
      | obj id tag fs => exact absurd rfl (hv id tag fs)

/-- The coupling between a write-side and a read-side state: positions
agree, table positions are bounded, the write table is node-closed, and
every write-side binding has the decoded (renamed) value at the same
position on the read side. -/
structure Coupled (W : WState) (S : RState) : Prop where
  posEq : S.pos = W.pos
  wbound : WBoundP W
  closed : DomClosed W.map
  sbound : ∀ e ∈ S.map, e.1 < S.pos
  tab : ∀ k p, lookupW W.map k = some p →
    lookupR S.map (p : Int) = some (rename W.map k)

theorem lookupR_cons (m : RMap) (a : Nat) (x : Value) (i : Int) :
    lookupR ((a, x) :: m) i = if (a : Int) = i then some x else lookupR m i := rfl

/-- The two initial states are coupled. -/
theorem coupled_init : Coupled W0 S0 := by
  refine ⟨rfl, ?_, ?_, ?_, ?_⟩
  · intro k p h; simp [W0, lookupW] at h
  · intro k p h; simp [W0, lookupW] at h
  · intro e he; simp [S0] at he
  · intro k p h; simp [W0, lookupW] at h

/-- Registering a fresh value at the current position on both sides (the
write side keyed by the value, the read side by the position, holding
the decoded value) preserves the coupling. -/
theorem coupled_register {W1 : WState} {S2 : RState} (hC : Coupled W1 S2) (v : Value)
    (hfresh : lookupW W1.map v = none)
    (hns : ∀ u ∈ objNodes v, u = v ∨ lookupW W1.map u ≠ none)
    (x : Value) (hx : x = rename (addRefW v W1).map v) :
    Coupled (addRefW v W1) (addRefR x S2) := by
  have hmapW : (addRefW v W1).map = (v, W1.pos) :: W1.map := rfl
  have prA : Preserves W1.map (addRefW v W1).map := preserves_addFresh W1.pos hfresh
  have hniv : NodesIn (addRefW v W1).map v := by
    intro u hu
    rcases hns u hu with rfl | hin
    · rw [hmapW, lookupW_self]; simp
    · rcases Option.ne_none_iff_exists'.1 hin with ⟨p, hp⟩
      rw [prA u p hp]; simp
  refine ⟨?_, ?_, ?_, ?_, ?_⟩
  · simp [addRefW, addRefR, hC.posEq]
  · intro k p hk
    rw [hmapW, lookupW_cons] at hk
    by_cases hvk : v = k
    · rw [if_pos hvk] at hk
      simp only [Option.some.injEq] at hk
      subst hk
      simp [addRefW]
    · rw [if_neg hvk] at hk
      have := hC.wbound k p hk
      simp only [addRefW]
      omega
  · intro k p hk
    rw [hmapW, lookupW_cons] at hk
    by_cases hvk : v = k
    · subst hvk; exact hniv
    · rw [if_neg hvk] at hk
      exact nodesIn_mono prA (hC.closed k p hk)
  · intro e he
    simp only [addRefR, List.mem_cons] at he
    rcases he with rfl | he
    · show S2.pos < S2.pos + 1
      omega
    · have := hC.sbound e he
      show e.1 < S2.pos + 1
      omega
  · intro k p hk
    rw [hmapW, lookupW_cons] at hk
    by_cases hvk : v = k
    · rw [if_pos hvk] at hk
      simp only [Option.some.injEq] at hk
      subst hvk
      subst hk
      rw [show (addRefR x S2).map = (S2.pos, x) :: S2.map from rfl, lookupR_cons,
          if_pos (by rw [hC.posEq]), hx]
    · rw [if_neg hvk] at hk
      have hlt := hC.wbound k p hk
      have htab := hC.tab k p hk
      rw [show (addRefR x S2).map = (S2.pos, x) :: S2.map from rfl, lookupR_cons,
          if_neg (by rw [hC.posEq]; omega), htab]
      have hst := rename_stable.1 k W1.map (addRefW v W1).map prA (hC.closed k p hk)
      rw [hst]

/-- Decoding an object section resolves exactly the capability the
write side's registry entry describes. -/
theorem resolveCap_optV (reg : Registry) (cfg : TypeConfig) :
    resolveCap reg (optV cfg.request) (optV cfg.exportName) =
      (match capResolvesTo reg cfg with
       | some cap => .ok cap
       | none => .error .noDeserializer) := by
  rcases cfg with ⟨req, exp, cap⟩
  rcases req with _ | r
  · rcases exp with _ | e <;> rfl
  · show (match reg.resolve r (exportTruthy (optV exp)) with
        | none => (Except.error DErr.noDeserializer : Except DErr Capability)
        | some ck =>
          match lookupT reg.types ck with
          | some cfg => Except.ok cfg.cap
          | none => Except.error DErr.noDeserializer) =
      (match (match reg.resolve r (exportTruthy (optV exp)) with
          | none => none
          | some ck => (lookupT reg.types ck).map (fun c => c.cap)) with
        | some cap => Except.ok cap
        | none => Except.error DErr.noDeserializer)
    rcases hr : reg.resolve r (exportTruthy (optV exp)) with _ | ck
    · rfl
    · show (match lookupT reg.types ck with
          | some cfg => Except.ok cfg.cap
          | none => (Except.error DErr.noDeserializer : Except DErr Capability)) =
        (match (lookupT reg.types ck).map (fun c => c.cap) with
          | some cap => Except.ok cap
          | none => Except.error DErr.noDeserializer)
      rcases ht : lookupT reg.types ck with _ | cfg' <;> rfl

/-- Forward rule for the sub-value read loop. -/
theorem decodeN_succ (reg : Registry) {fuel n : Nat} {S : RState} {data : List Value}
    {v : Value} {S1 : RState} {rest1 : List Value} {vs : List Value} {S2 : RState}
    {rest2 : List Value}
    (hv : decodeValue reg fuel S data = .ok (v, S1, rest1))
    (hn : decodeN reg fuel n S1 rest1 = .ok (vs, S2, rest2)) :
    decodeN reg fuel (n + 1) S data = .ok (v :: vs, S2, rest2) := by
  rw [decodeN.eq_def]
  simp only [hv, hn]

/-- The sub-value read loop for zero values reads nothing. -/
theorem decodeN_zero (reg : Registry) (fuel : Nat) (S : RState) (data : List Value) :
    decodeN reg fuel 0 S data = .ok ([], S, data) := by
  rw [decodeN.eq_def]

/-- Unfold coherence of a structured object. -/
theorem coherentB_obj {reg : Registry} {id tag : Nat} {fs : List Value}
    (h : coherentB reg (.obj id tag fs) = true) :
    (∃ cfg, lookupT reg.types (some tag) = some cfg ∧
      capResolvesTo reg cfg = some ⟨fs.length, tag⟩) ∧ coherentListB reg fs = true := by
  simp only [coherentB, Bool.and_eq_true] at h
  refine ⟨?_, h.2⟩
  have h1 := h.1
  unfold coherentTagB at h1
  split at h1
  · exact absurd h1 (by simp)
  · rename_i cfg heq
    exact ⟨cfg, heq, by simpa using h1⟩

/-- Unfold coherence of a non-empty list. -/
theorem coherentListB_cons {reg : Registry} {v : Value} {vs : List Value}
    (h : coherentListB reg (v :: vs) = true) :
    coherentB reg v = true ∧ coherentListB reg vs = true := by
  simpa [coherentListB, Bool.and_eq_true] using h

/-- Decoding the two-item back-reference a table hit emits returns the
decoded value registered at the referenced position, with no state
change. -/
theorem sim_backref {reg : Registry} {W : WState} {S : RState} {v : Value} {r : Nat}
    (rest : List Value) {fuel : Nat} (hC : Coupled W S) (hl : lookupW W.map v = some r)
    (hf : 2 ≤ fuel) :
    decodeValue reg fuel S ([Value.null, Value.num ((r : Int) - (W.pos : Int))] ++ rest) =
      .ok (rename W.map v, S, rest) := by
  obtain ⟨f, rfl⟩ : ∃ f, fuel = f + 1 := ⟨fuel - 1, by omega⟩
  have hr : r < W.pos := hC.wbound v r hl
  have hk : ((r : Int) - (W.pos : Int)) ≠ 1 := by omega
  rw [show [Value.null, Value.num ((r : Int) - (W.pos : Int))] ++ rest
      = Value.null :: Value.num ((r : Int) - (W.pos : Int)) :: rest from rfl,
    decode_escape, decode_backref reg f S _ rest hk]
  have hpos : (S.pos : Int) + ((r : Int) - (W.pos : Int)) = (r : Int) := by
    rw [hC.posEq]; omega
  rw [hpos, hC.tab v r hl]
  rfl

theorem renameList_nil (m : WMap) : renameList m [] = [] := by
  simp [renameList]

theorem renameList_cons (m : WMap) (v : Value) (vs : List Value) :
    renameList m (v :: vs) = rename m v :: renameList m vs := by
  simp [renameList]

/-- The central simulation: decoding the stream segment `process` emits
for a well-registered value, from a coupled read state, reconstructs
exactly the renamed value, leaves the trailing stream untouched and
re-establishes the coupling.  The list version runs the field-read loop
of the object deserializer. -/
theorem simulation (reg : Registry) :
    (∀ v : Value, ∀ W S out W' rest fuel, Coupled W S → coherentB reg v = true →
      process reg v W = .ok (out, W') → out.length ≤ fuel →
      ∃ S', decodeValue reg fuel S (out ++ rest) = .ok (rename W'.map v, S', rest) ∧
        Coupled W' S') ∧
    (∀ vs : List Value, ∀ W S out W' rest fuel, Coupled W S → coherentListB reg vs = true →
      processList reg vs W = .ok (out, W') → out.length ≤ fuel →
      ∃ S', decodeN reg fuel vs.length S (out ++ rest) =
        .ok (renameList W'.map vs, S', rest) ∧ Coupled W' S') := by
  apply valueInd
      (fun v => ∀ W S out W' rest fuel, Coupled W S → coherentB reg v = true →
        process reg v W = .ok (out, W') → out.length ≤ fuel →
        ∃ S', decodeValue reg fuel S (out ++ rest) = .ok (rename W'.map v, S', rest) ∧
          Coupled W' S')
      (fun vs => ∀ W S out W' rest fuel, Coupled W S → coherentListB reg vs = true →
        processList reg vs W = .ok (out, W') → out.length ≤ fuel →
        ∃ S', decodeN reg fuel vs.length S (out ++ rest) =
          .ok (renameList W'.map vs, S', rest) ∧ Coupled W' S')
  · -- empty field list
    intro W S out W' rest fuel hC _ h _
    obtain ⟨rfl, rfl⟩ := processList_nil_inv h
    exact ⟨S, by
      rw [List.nil_append]
      simp only [List.length_nil]
      rw [decodeN_zero, renameList_nil], hC⟩
  · -- non-empty field list
    intro v vs ihv ihvs W S out W' rest fuel hC hcoh h hlen
    obtain ⟨o1, W1, o2, h1, h2, rfl⟩ := processList_cons_inv h
    obtain ⟨hc1, hc2⟩ := coherentListB_cons hcoh
    have hl1 : o1.length ≤ fuel := by simp at hlen; omega
    have hl2 : o2.length ≤ fuel := by simp at hlen; omega
    obtain ⟨S1, hdec1, hC1⟩ := ihv W S o1 W1 (o2 ++ rest) fuel hC hc1 h1 hl1
    obtain ⟨S', hdec2, hC2⟩ := ihvs W1 S1 o2 W' rest fuel hC1 hc2 h2 hl2
    have hpr : Preserves W1.map W'.map := (encodeFacts.2 vs reg W1 o2 W' h2).2.1
    have hni : NodesIn W1.map v :=
      ((encodeFacts.1 v reg W o1 W1 h1).2.2.2.2.1 hC.closed).2
    have hren : rename W'.map v = rename W1.map v :=
      rename_stable.1 v W1.map W'.map hpr hni
    refine ⟨S', ?_, hC2⟩
    rw [show (v :: vs).length = vs.length + 1 from rfl, List.append_assoc,
      decodeN_succ reg hdec1 hdec2, renameList_cons, hren]
  · -- structured object
    intro id tag fs ihfs W S out W' rest fuel hC hcoh h hlen
    rcases process_inv h with ⟨r, hl, rfl, rfl⟩ | ⟨hl, hnew⟩
    · exact ⟨S, sim_backref rest hC hl (by simpa using hlen), hC⟩
    · obtain ⟨cfg, o1, W1, ht, h1, rfl, rfl⟩ := processNew_obj_inv hnew
      obtain ⟨⟨cfg', ht', hcap⟩, hcfs⟩ := coherentB_obj hcoh
      rw [ht] at ht'
      obtain rfl : cfg = cfg' := by simpa using ht'
      simp only [List.length_cons] at hlen
      obtain ⟨f, rfl⟩ : ∃ f, fuel = f + 1 := ⟨fuel - 1, by omega⟩
      have hlf : o1.length ≤ f := by omega
      obtain ⟨S2, hdec, hC2⟩ := ihfs W S o1 W1 rest f hC hcfs h1 hlf
      have hfresh : lookupW W1.map (Value.obj id tag fs) = none := by
        by_contra hne
        rcases (encodeFacts.2 fs reg W o1 W1 h1).2.2.1 _ hne with h0 | h0
        · rw [hl] at h0; exact h0 rfl
        · have hsz := sizeOf_subVals.2 fs _ h0
          simp at hsz
      have hniL : NodesInL W1.map fs :=
        ((encodeFacts.2 fs reg W o1 W1 h1).2.2.2.2 hC.closed).2
      have hprA : Preserves W1.map (addRefW (Value.obj id tag fs) W1).map :=
        preserves_addFresh W1.pos hfresh
      have hrenL : renameList (addRefW (Value.obj id tag fs) W1).map fs
          = renameList W1.map fs :=
        rename_stable.2 fs W1.map _ hprA hniL
      have hbuilt : rename (addRefW (Value.obj id tag fs) W1).map (Value.obj id tag fs)
          = Value.obj S2.pos tag (renameList W1.map fs) := by
        have hlook : lookupW (addRefW (Value.obj id tag fs) W1).map (Value.obj id tag fs)
            = some W1.pos := lookupW_self _ _ _
        simp [rename, hlook, hrenL, hC2.posEq]
      have hq : optV cfg.request = Value.null ∨ ∃ s, optV cfg.request = Value.str s := by
        cases hreq : cfg.request with
        | none => exact Or.inl rfl
        | some r => exact Or.inr ⟨r, rfl⟩
      have hres : resolveCap reg (optV cfg.request) (optV cfg.exportName)
          = .ok ⟨fs.length, tag⟩ := by
        rw [resolveCap_optV, hcap]
      refine ⟨addRefR (Value.obj S2.pos tag (renameList W1.map fs)) S2, ?_, ?_⟩
      · rw [show (Value.null :: optV cfg.request :: optV cfg.exportName :: o1) ++ rest
            = Value.null :: optV cfg.request :: optV cfg.exportName :: (o1 ++ rest)
            from by simp, decode_escape, decode_header reg f S _ _ _ hq]
        simp only [hres, hdec, hbuilt]
      · rw [hbuilt.symm]
        apply coupled_register hC2 (Value.obj id tag fs) hfresh
        · intro u hu
          simp only [objNodes, List.mem_cons] at hu
          rcases hu with rfl | hu
          · exact Or.inl rfl
          · exact Or.inr (hniL u hu)
        · rfl
  · -- every non-object value
    intro v hv W S out W' rest fuel hC hcoh h hlen
    have hren : ∀ m : WMap, rename m v = v := fun m => rename_nonobj m v hv
    rcases process_inv h with ⟨r, hl, rfl, rfl⟩ | ⟨hl, hnew⟩
    · exact ⟨S, sim_backref rest hC hl (by simpa using hlen), hC⟩
    · cases v with
      | null =>
        rw [processNew_null] at hnew
        simp only [Except.ok.injEq, Prod.mk.injEq] at hnew
        obtain ⟨h1, h2⟩ := hnew
        subst h1; subst h2
        simp only [List.length_cons] at hlen
        obtain ⟨f, rfl⟩ : ∃ f, fuel = f + 1 := ⟨fuel - 1, by omega⟩
        refine ⟨S, ?_, hC⟩
        rw [show [Value.null, Value.num 1] ++ rest
            = Value.null :: Value.num 1 :: rest from rfl,
          decode_escape, decode_escape_escape, hren]
      | undef =>
        rw [processNew_undef] at hnew
        simp only [Except.ok.injEq, Prod.mk.injEq] at hnew
        obtain ⟨h1, h2⟩ := hnew
        subst h1; subst h2
        simp only [List.length_cons] at hlen
        obtain ⟨f, rfl⟩ : ∃ f, fuel = f + 1 := ⟨fuel - 1, by omega⟩
        exact ⟨S, by rw [List.cons_append, List.nil_append, decode_undef, hren], hC⟩
      | num n =>
        rw [processNew_num] at hnew
        simp only [Except.ok.injEq, Prod.mk.injEq] at hnew
        obtain ⟨h1, h2⟩ := hnew
        subst h1; subst h2
        simp only [List.length_cons] at hlen
        obtain ⟨f, rfl⟩ : ∃ f, fuel = f + 1 := ⟨fuel - 1, by omega⟩
        exact ⟨S, by rw [List.cons_append, List.nil_append, decode_num, hren], hC⟩
      | boolV b =>
        rw [processNew_bool] at hnew
        simp only [Except.ok.injEq, Prod.mk.injEq] at hnew
        obtain ⟨h1, h2⟩ := hnew
        subst h1; subst h2
        simp only [List.length_cons] at hlen
        obtain ⟨f, rfl⟩ : ∃ f, fuel = f + 1 := ⟨fuel - 1, by omega⟩
        exact ⟨S, by rw [List.cons_append, List.nil_append, decode_bool, hren], hC⟩
      | str s =>
        rw [processNew_str] at hnew
        simp only [Except.ok.injEq, Prod.mk.injEq] at hnew
        obtain ⟨h1, h2⟩ := hnew
        subst h1; subst h2
        simp only [List.length_cons] at hlen
        obtain ⟨f, rfl⟩ : ∃ f, fuel = f + 1 := ⟨fuel - 1, by omega⟩
        refine ⟨addRefR (Value.str s) S, ?_, ?_⟩
        · rw [List.cons_append, List.nil_append, decode_str, hren]
        · have hns : ∀ u ∈ objNodes (Value.str s),
              u = Value.str s ∨ lookupW W.map u ≠ none := by
            intro u hu
            rw [objNodes_nonobj _ hv] at hu
            simp at hu
          exact coupled_register hC (Value.str s) hl hns (Value.str s) (hren _).symm
      | buf id c =>
        have : coherentB reg (Value.buf id c) = false := by
          rw [coherentB.eq_def]
        rw [this] at hcoh
        exact absurd hcoh (by simp)
      | obj id tag fs => exact absurd rfl (hv id tag fs)

/-- Serialization succeeds on any value whose object nodes are all
registered (and that contains no byte buffer). -/
theorem encodeTotal (reg : Registry) :
    (∀ v : Value, coherentB reg v = true → ∀ W, ∃ r, process reg v W = .ok r) ∧
    (∀ vs : List Value, coherentListB reg vs = true → ∀ W, ∃ r, processList reg vs W = .ok r) := by
  apply valueInd
      (fun v => coherentB reg v = true → ∀ W, ∃ r, process reg v W = .ok r)
      (fun vs => coherentListB reg vs = true → ∀ W, ∃ r, processList reg vs W = .ok r)
  · intro _ W
    exact ⟨([], W), processList_nil reg W⟩
  · intro v vs ihv ihvs hcoh W
    obtain ⟨hc1, hc2⟩ := coherentListB_cons hcoh
    obtain ⟨⟨o1, W1⟩, h1⟩ := ihv hc1 W
    obtain ⟨⟨o2, W2⟩, h2⟩ := ihvs hc2 W1
    exact ⟨(o1 ++ o2, W2), processList_cons reg h1 h2⟩
  · intro id tag fs ihfs hcoh W
    rcases hl : lookupW W.map (.obj id tag fs) with _ | r
    · obtain ⟨⟨cfg, ht, _⟩, hcfs⟩ := coherentB_obj hcoh
      obtain ⟨⟨o1, W1⟩, h1⟩ := ihfs hcfs W
      exact ⟨_, process_obj reg hl ht h1⟩
    · exact ⟨_, process_hit reg _ W r hl⟩
  · intro v hv hcoh W
    rcases hl : lookupW W.map v with _ | r
    · cases v with
      | null => exact ⟨_, by rw [process_miss reg _ W hl, processNew_null]⟩
      | undef => exact ⟨_, by rw [process_miss reg _ W hl, processNew_undef]⟩
      | num n => exact ⟨_, by rw [process_miss reg _ W hl, processNew_num]⟩
      | boolV b => exact ⟨_, by rw [process_miss reg _ W hl, processNew_bool]⟩
      | str s => exact ⟨_, by rw [process_miss reg _ W hl, processNew_str]⟩
      | buf id c =>
        have : coherentB reg (Value.buf id c) = false := by rw [coherentB.eq_def]
        rw [this] at hcoh
        exact absurd hcoh (by simp)
      | obj id tag fs => exact absurd rfl (hv id tag fs)
    · exact ⟨_, process_hit reg _ W r hl⟩

/-- The decode loop on an exhausted input returns the collected
results. -/
theorem decodeLoop_nil (reg : Registry) (f : Nat) (S : RState) :
    decodeLoop reg f S [] = .ok [] := by
  rw [decodeLoop.eq_def]

/-- Forward rule for one iteration of the decode loop. -/
theorem decodeLoop_cons (reg : Registry) {f : Nat} {S : RState} {d : Value}
    {ds : List Value} {v : Value} {S1 : RState} {rest : List Value} {vs : List Value}
    (hv : decodeValue reg (f + 1) S (d :: ds) = .ok (v, S1, rest))
    (hl : decodeLoop reg f S1 rest = .ok vs) :
    decodeLoop reg (f + 1) S (d :: ds) = .ok (v :: vs) := by
  rw [decodeLoop.eq_def]
  simp only [hv, hl]

/-- A failing `decodeValue` aborts the whole decode loop. -/
theorem decodeLoop_cons_err (reg : Registry) {f : Nat} {S : RState} {d : Value}
    {ds : List Value} {e : DErr}
    (hv : decodeValue reg (f + 1) S (d :: ds) = .error e) :
    decodeLoop reg (f + 1) S (d :: ds) = .error e := by
  rw [decodeLoop.eq_def]
  simp only [hv]

/-- A failing first read aborts the sub-value read loop. -/
theorem decodeN_err1 (reg : Registry) {fuel n : Nat} {S : RState} {data : List Value}
    {e : DErr} (hv : decodeValue reg fuel S data = .error e) :
    decodeN reg fuel (n + 1) S data = .error e := by
  rw [decodeN.eq_def]
  simp only [hv]

/-- A failing later read aborts the sub-value read loop. -/
theorem decodeN_err2 (reg : Registry) {fuel n : Nat} {S : RState} {data : List Value}
    {v : Value} {S1 : RState} {rest : List Value} {e : DErr}
    (hv : decodeValue reg fuel S data = .ok (v, S1, rest))
    (hn : decodeN reg fuel n S1 rest = .error e) :
    decodeN reg fuel (n + 1) S data = .error e := by
  rw [decodeN.eq_def]
  simp only [hv, hn]

/-- Round-trip core: decoding the full encoding of a single registered
value reconstructs the renamed value, with lockstep final positions. -/
theorem roundtrip_core (reg : Registry) (g : Value) {out : List Value} {W' : WState}
    (hcoh : coherentB reg g = true)
    (h : processList reg [g] W0 = .ok (out, W')) :
    ∃ S', deserialize reg out = .ok [rename W'.map g] ∧ Coupled W' S' := by
  obtain ⟨o1, W1, o2, h1, h2, rfl⟩ := processList_cons_inv h
  obtain ⟨rfl, rfl⟩ := processList_nil_inv h2
  rw [List.append_nil]
  have hne : o1 ≠ [] := (encodeFacts.1 g reg W0 o1 W' h1).2.2.2.2.2
  rcases o1 with _ | ⟨d, ds⟩
  · exact absurd rfl hne
  obtain ⟨S', hdec, hC⟩ := (simulation reg).1 g W0 S0 (d :: ds) W' []
    ((d :: ds).length + 1) coupled_init hcoh h1 (by omega)
  rw [List.append_nil] at hdec
  refine ⟨S', ?_, hC⟩
  simp only [List.length_cons] at hdec
  show decodeLoop reg ((d :: ds).length + 1) S0 (d :: ds) = _
  simp only [List.length_cons]
  rw [decodeLoop_cons reg hdec (decodeLoop_nil reg _ S')]

theorem take_one_cons (a b : Value) (l : List Value) : (a :: b :: l).take 1 = [a] := rfl

theorem take_two_cons (a b c : Value) (l : List Value) : (a :: b :: c :: l).take 2 = [a, b] := rfl

/-- Truncation: cutting the stream segment of one encoded value strictly
inside the segment makes its decoding fail with `Unexpected end of
stream`; the list version covers a cut anywhere strictly inside the
concatenated field segments (including at a field boundary with fields
still missing). -/
theorem truncation (reg : Registry) :
    (∀ v : Value, ∀ W S out W' k fuel, Coupled W S → coherentB reg v = true →
      process reg v W = .ok (out, W') → 0 < k → k < out.length → k + 1 ≤ fuel →
      decodeValue reg fuel S (out.take k) = .error .eos) ∧
    (∀ vs : List Value, ∀ W S out W' k fuel, Coupled W S → coherentListB reg vs = true →
      processList reg vs W = .ok (out, W') → k < out.length → k + 1 ≤ fuel →
      decodeN reg fuel vs.length S (out.take k) = .error .eos) := by
  apply valueInd
      (fun v => ∀ W S out W' k fuel, Coupled W S → coherentB reg v = true →
        process reg v W = .ok (out, W') → 0 < k → k < out.length → k + 1 ≤ fuel →
        decodeValue reg fuel S (out.take k) = .error .eos)
      (fun vs => ∀ W S out W' k fuel, Coupled W S → coherentListB reg vs = true →
        processList reg vs W = .ok (out, W') → k < out.length → k + 1 ≤ fuel →
        decodeN reg fuel vs.length S (out.take k) = .error .eos)
  · -- empty field list: no position strictly inside an empty segment
    intro W S out W' k fuel _ _ h hk _
    obtain ⟨rfl, rfl⟩ := processList_nil_inv h
    simp at hk
  · -- non-empty field list
    intro v vs ihv ihvs W S out W' k fuel hC hcoh h hk hf
    obtain ⟨o1, W1, o2, h1, h2, rfl⟩ := processList_cons_inv h
    obtain ⟨hc1, hc2⟩ := coherentListB_cons hcoh
    obtain ⟨f, rfl⟩ : ∃ f, fuel = f + 1 := ⟨fuel - 1, by omega⟩
    rcases Nat.lt_trichotomy k o1.length with hlt | rfl | hgt
    · -- cut inside the first field's segment
      have htake : (o1 ++ o2).take k = o1.take k := by
        rw [List.take_append_eq_append_take, Nat.sub_eq_zero_of_le (le_of_lt hlt)]
        simp
      rw [htake]
      rcases Nat.eq_zero_or_pos k with rfl | hk0
      · -- cut before the first field: the next read hits the end
        rw [List.take_zero]
        exact decodeN_err1 reg (decode_eos reg f S)
      · exact decodeN_err1 reg (ihv W S o1 W1 k (f + 1) hC hc1 h1 hk0 hlt hf)
    · -- cut exactly at the end of the first field's segment
      have htake : (o1 ++ o2).take o1.length = o1 ++ [] := by
        rw [List.take_append_eq_append_take]
        simp
      rw [htake]
      have ho2 : o2 ≠ [] := by
        intro he
        rw [he] at hk
        simp at hk
      have hvs : vs ≠ [] := by
        intro he
        subst he
        exact ho2 (processList_nil_inv h2).1
      rcases vs with _ | ⟨v', vs'⟩
      · exact absurd rfl hvs
      · obtain ⟨S1, hdec', hC1⟩ := (simulation reg).1 v W S o1 W1 [] (f + 1)
          hC hc1 h1 (by omega)
        rw [show (v :: v' :: vs').length = (v' :: vs').length + 1 from rfl]
        refine decodeN_err2 reg hdec' ?_
        rw [show (v' :: vs').length = vs'.length + 1 from rfl]
        exact decodeN_err1 reg (decode_eos reg f S1)
    · -- cut inside the remaining fields' segments
      have htake : (o1 ++ o2).take k = o1 ++ o2.take (k - o1.length) := by
        rw [List.take_append_eq_append_take, List.take_of_length_le (by omega)]
      rw [htake]
      obtain ⟨S1, hdec, hC1⟩ := (simulation reg).1 v W S o1 W1 (o2.take (k - o1.length))
        (f + 1) hC hc1 h1 (by omega)
      have hrec := ihvs W1 S1 o2 W' (k - o1.length) (f + 1) hC1 hc2 h2
        (by simp at hk; omega) (by omega)
      rw [show (v :: vs).length = vs.length + 1 from rfl]
      exact decodeN_err2 reg hdec hrec
  · -- structured object
    intro id tag fs ihfs W S out W' k fuel hC hcoh h hk0 hk hf
    obtain ⟨f, rfl⟩ : ∃ f, fuel = f + 1 := ⟨fuel - 1, by omega⟩
    rcases process_inv h with ⟨r, hl, rfl, rfl⟩ | ⟨hl, hnew⟩
    · -- a back-reference segment has two items; only the cut after the
      -- escape sentinel is strictly inside
      have : k = 1 := by simp at hk; omega
      subst this
      rw [take_one_cons, decode_escape]
      exact escaped_eos reg f S
    · obtain ⟨cfg, o1, W1, ht, h1, rfl, rfl⟩ := processNew_obj_inv hnew
      obtain ⟨⟨cfg', ht', hcap⟩, hcfs⟩ := coherentB_obj hcoh
      rw [ht] at ht'
      obtain rfl : cfg = cfg' := by simpa using ht'
      have hq : optV cfg.request = Value.null ∨ ∃ s, optV cfg.request = Value.str s := by
        cases hreq : cfg.request with
        | none => exact Or.inl rfl
        | some r => exact Or.inr ⟨r, rfl⟩
      have hres : resolveCap reg (optV cfg.request) (optV cfg.exportName)
          = .ok ⟨fs.length, tag⟩ := by
        rw [resolveCap_optV, hcap]
      match k, hk0 with
      | 1, _ =>
        rw [take_one_cons, decode_escape]
        exact escaped_eos reg f S
      | 2, _ =>
        rw [take_two_cons, decode_escape]
        exact escaped_header_eos reg f S _ hq
      | (j + 3), _ =>
        simp only [List.length_cons] at hk
        have htake : (Value.null :: optV cfg.request :: optV cfg.exportName :: o1).take (j + 3)
            = Value.null :: optV cfg.request :: optV cfg.exportName :: o1.take j := rfl
        rw [htake, decode_escape, decode_header reg f S _ _ _ hq]
        have hrec := ihfs W S o1 W1 j f hC hcfs h1 (by omega) (by omega)
        simp only [hres, hrec]
  · -- every non-object value
    intro v hv W S out W' k fuel hC hcoh h hk0 hk hf
    obtain ⟨f, rfl⟩ : ∃ f, fuel = f + 1 := ⟨fuel - 1, by omega⟩
    rcases process_inv h with ⟨r, hl, rfl, rfl⟩ | ⟨hl, hnew⟩
    · have : k = 1 := by simp at hk; omega
      subst this
      rw [take_one_cons, decode_escape]
      exact escaped_eos reg f S
    · cases v with
      | null =>
        rw [processNew_null] at hnew
        simp only [Except.ok.injEq, Prod.mk.injEq] at hnew
        obtain ⟨h1, h2⟩ := hnew
        subst h1; subst h2
        have : k = 1 := by simp at hk; omega
        subst this
        rw [take_one_cons, decode_escape]
        exact escaped_eos reg f S
      | undef =>
        rw [processNew_undef] at hnew
        simp only [Except.ok.injEq, Prod.mk.injEq] at hnew
        obtain ⟨h1, h2⟩ := hnew
        subst h1; subst h2
        simp at hk
        omega
      | num n =>
        rw [processNew_num] at hnew
        simp only [Except.ok.injEq, Prod.mk.injEq] at hnew
        obtain ⟨h1, h2⟩ := hnew
        subst h1; subst h2
        simp at hk
        omega
      | boolV b =>
        rw [processNew_bool] at hnew
        simp only [Except.ok.injEq, Prod.mk.injEq] at hnew
        obtain ⟨h1, h2⟩ := hnew
        subst h1; subst h2
        simp at hk
        omega
      | str s =>
        rw [processNew_str] at hnew
        simp only [Except.ok.injEq, Prod.mk.injEq] at hnew
        obtain ⟨h1, h2⟩ := hnew
        subst h1; subst h2
        simp at hk
        omega
      | buf id c =>
        have : coherentB reg (Value.buf id c) = false := by rw [coherentB.eq_def]
        rw [this] at hcoh
        exact absurd hcoh (by simp)
      | obj id tag fs => exact absurd rfl (hv id tag fs)

/-- A failing `process` aborts the serialization loop. -/
theorem processList_cons_err (reg : Registry) {v : Value} (vs : List Value) {W : WState}
    {e : SErr} (h : process reg v W = .error e) :
    processList reg (v :: vs) W = .error e := by
  rw [processList.eq_def]
  simp only [h]

/-- Reading a property of the instance after assignment. -/
theorem getProp_setProp_self (o : Rec) (p : String) (v : Value) :
    getProp (setProp o p v) p = v := by
  simp [setProp, getProp]

/-- Assigning one property leaves the others unchanged. -/
theorem getProp_setProp_ne (o : Rec) (p q : String) (v : Value) (h : p ≠ q) :
    getProp (setProp o p v) q = getProp o q := by
  simp [setProp, getProp, h]

/-- Reading the listed fields back from their own write sequence
consumes exactly the written items, reproduces every listed field of the
source record on the populated instance, and leaves unlisted fields of
the fresh instance unchanged. -/
theorem psReadFields_spec (ps : List String) (o source : Rec) (rest : List Value) :
    (psReadFields ps o (psWriteFields ps source ++ rest)).2 = rest ∧
    (∀ p, p ∈ ps → getProp (psReadFields ps o (psWriteFields ps source ++ rest)).1 p
      = getProp source p) ∧
    (∀ p, p ∉ ps → getProp (psReadFields ps o (psWriteFields ps source ++ rest)).1 p
      = getProp o p) := by
  induction ps generalizing o with
  | nil =>
    refine ⟨rfl, ?_, fun p _ => rfl⟩
    intro p hp
    simp at hp
  | cons q ps ih =>
    rw [show psWriteFields (q :: ps) source
        = getProp source q :: psWriteFields ps source from rfl]
    rw [show (getProp source q :: psWriteFields ps source) ++ rest
        = getProp source q :: (psWriteFields ps source ++ rest) from rfl]
    rw [show psReadFields (q :: ps) o (getProp source q :: (psWriteFields ps source ++ rest))
        = psReadFields ps (setProp o q (getProp source q)) (psWriteFields ps source ++ rest)
        from rfl]
    obtain ⟨hrest, hin, hout⟩ := ih (setProp o q (getProp source q))
    refine ⟨hrest, ?_, ?_⟩
    · intro p hp
      rcases List.mem_cons.1 hp with rfl | hp
      · by_cases hq : p ∈ ps
        · exact hin p hq
        · rw [hout p hq, getProp_setProp_self]
      · exact hin p hp
    · intro p hp
      rw [List.mem_cons] at hp
      push_neg at hp
      rw [hout p hp.2, getProp_setProp_ne _ _ _ _ (Ne.symm hp.1)]

/-- `PropertiesSerializer.deserialize` is the field-read loop followed by
exactly one application of the post-construction hook (the identity when
no hook is supplied). -/
theorem psDeserialize_hook (S : PropSerializer) (src : List Value) :
    psDeserialize S src =
      ((S.onRestored.getD id) (psReadFields S.properties S.ctor src).1,
       (psReadFields S.properties S.ctor src).2) := by
  cases hr : psReadFields S.properties S.ctor src with
  | mk o rest =>
    cases ho : S.onRestored <;> simp [psDeserialize, hr, ho]

/-- The resolved value of a promise-or-value is unchanged by
`Promise.resolve`. -/
theorem presolve_val (x : PVal α) : (presolve x).val = x.val := by
  cases x <;> rfl

/-- `Promise.resolve` always returns a promise. -/
theorem presolve_promise (x : PVal α) : ∃ a, presolve x = .promise a := by
  cases x <;> exact ⟨_, rfl⟩

/-- The chained forward fold resolves to the pure left fold of the
stages' resolved results: promise chaining makes each stage run on the
previous stage's resolved value, whether or not any stage is
asynchronous. -/
theorem foldFwd_val (mws : List Middleware) (ctx : String) (init : PVal (List Value)) :
    (mws.foldl (stepFwd ctx) init).val
      = mws.foldl (fun acc m => (m.fwd acc ctx).val) init.val := by
  induction mws generalizing init with
  | nil => rfl
  | cons m ms ih =>
    rw [List.foldl_cons, List.foldl_cons, ih]
    cases init <;> rfl

/-- The chained backward fold resolves to the pure left fold of the
stages' resolved results. -/
theorem foldBwd_val (mws : List Middleware) (ctx : String) (init : PVal (List Value)) :
    (mws.foldl (stepBwd ctx) init).val
      = mws.foldl (fun acc m => (m.bwd acc ctx).val) init.val := by
  induction mws generalizing init with
  | nil => rfl
  | cons m ms ih =>
    rw [List.foldl_cons, List.foldl_cons, ih]
    cases init <;> rfl

/-- The buffer branch of `process` fails when no serializer is keyed by
the `Buffer` constructor — the repository never registers one. -/
theorem processNew_buf_err (reg : Registry) (id : Nat) (c : List Nat) (W : WState)
    (ht : lookupT reg.types none = none) :
    processNew reg (.buf id c) W = .error (.noSerializer none) := by
  rw [processNew.eq_def]
  simp only [ht]

/-- Coherence of a single-element sequence. -/
theorem coherentListB_single (reg : Registry) (g : Value)
    (h : coherentB reg g = true) : coherentListB reg [g] = true := by
  have hnil : coherentListB reg ([] : List Value) = true := by
    rw [coherentListB.eq_def]
  rw [coherentListB.eq_def]
  simp [h, hnil]

/-- In a well-formed object graph, object nodes are determined by their
identity. -/
theorem wfB_same_id {g : Value} (hwf : wfB g = true) {i t1 t2 : Nat}
    {f1 f2 : List Value} (h1 : Value.obj i t1 f1 ∈ objNodes g)
    (h2 : Value.obj i t2 f2 ∈ objNodes g) :
    Value.obj i t1 f1 = Value.obj i t2 f2 := by
  simp only [wfB, List.all_eq_true] at hwf
  have := hwf _ h1 _ h2
  simp at this
  obtain ⟨rfl, rfl⟩ := this
  rfl

/-- A registry with a single globally-named field-list capability: the
runtime type `1` is registered under the global name `T` with two
fields.  Mirrors a host that called `registerGlobal` once at startup. -/
def regT : Registry :=
  ⟨[(some 1, ⟨none, some "T", ⟨2, 1⟩⟩)], [(some "T", ⟨2, 1⟩)], fun _ _ => none⟩

/-- A registry with no entries at all; in particular (like every registry
the repository ever builds) it has no serializer keyed by the `Buffer`
constructor. -/
def emptyRegistry : Registry := ⟨[], [], fun _ _ => none⟩

/-- Concrete evaluation: serializing the escape sentinel emits the
escaped-escape pair. -/
theorem serialize_null_eval (reg : Registry) :
    serialize reg [Value.null] = .ok [Value.null, Value.num 1] := by
  have h1 : process reg Value.null W0 = .ok ([Value.null, Value.num 1], W0) := by
    rw [process_miss reg _ W0 rfl, processNew_null]
  have h2 := processList_cons reg h1 (processList_nil reg W0)
  simp [serialize, h2]

/-- Concrete evaluation: decoding the escaped-escape pair returns the
sentinel. -/
theorem deserialize_null_eval (reg : Registry) :
    deserialize reg [Value.null, Value.num 1] = .ok [Value.null] := by
  have hv : decodeValue reg 3 S0 [Value.null, Value.num 1] = .ok (Value.null, S0, []) := by
    rw [show (3 : Nat) = 2 + 1 from rfl, decode_escape, decode_escape_escape]
  show decodeLoop reg 3 S0 [Value.null, Value.num 1] = .ok [Value.null]
  rw [show (3 : Nat) = 2 + 1 from rfl] at hv ⊢
  rw [decodeLoop_cons reg hv (decodeLoop_nil reg 2 S0)]

/-- Concrete evaluation: an unresolvable back-reference decodes to JS
`undefined` and the call returns normally. -/
theorem deserialize_unresolved_eval :
    deserialize emptyRegistry [Value.null, Value.num 5] = .ok [Value.undef] := by
  have hv : decodeValue emptyRegistry 3 S0 [Value.null, Value.num 5]
      = .ok (Value.undef, S0, []) := by
    rw [show (3 : Nat) = 2 + 1 from rfl, decode_escape,
      decode_backref emptyRegistry 2 S0 5 [] (by norm_num)]
    rfl
  show decodeLoop emptyRegistry 3 S0 [Value.null, Value.num 5] = .ok [Value.undef]
  rw [show (3 : Nat) = 2 + 1 from rfl] at hv ⊢
  rw [decodeLoop_cons emptyRegistry hv (decodeLoop_nil emptyRegistry 2 S0)]

/-- Concrete evaluation: serializing the same string twice emits one
full item and one two-item back-reference. -/
theorem serialize_str_pair_eval (reg : Registry) (s : String) :
    serialize reg [Value.str s, Value.str s]
      = .ok [Value.str s, Value.null, Value.num (-1)] := by
  have h1 : process reg (Value.str s) W0 = .ok ([Value.str s], addRefW (Value.str s) W0) := by
    rw [process_miss reg _ W0 rfl, processNew_str]
  have hl : lookupW (addRefW (Value.str s) W0).map (Value.str s) = some 0 :=
    lookupW_self [] (Value.str s) 0
  have h2 : process reg (Value.str s) (addRefW (Value.str s) W0)
      = .ok ([Value.null, Value.num (-1)], addRefW (Value.str s) W0) := by
    rw [process_hit reg (Value.str s) (addRefW (Value.str s) W0) 0 hl]
    norm_num [addRefW, W0]
  have h3 := processList_cons reg h2 (processList_nil reg (addRefW (Value.str s) W0))
  have h4 := processList_cons reg h1 h3
  simp [serialize, h4]

/-- Concrete evaluation: decoding a full string item followed by a
back-reference to it returns the same string value twice. -/
theorem deserialize_str_pair_eval (reg : Registry) (s : String) :
    deserialize reg [Value.str s, Value.null, Value.num (-1)]
      = .ok [Value.str s, Value.str s] := by
  have hv1 : decodeValue reg 4 S0 [Value.str s, Value.null, Value.num (-1)]
      = .ok (Value.str s, addRefR (Value.str s) S0, [Value.null, Value.num (-1)]) := by
    rw [show (4 : Nat) = 3 + 1 from rfl, decode_str]
  have hv2 : decodeValue reg 3 (addRefR (Value.str s) S0) [Value.null, Value.num (-1)]
      = .ok (Value.str s, addRefR (Value.str s) S0, []) := by
    rw [show (3 : Nat) = 2 + 1 from rfl, decode_escape,
      decode_backref reg 2 (addRefR (Value.str s) S0) (-1) [] (by norm_num)]
    have : lookupR (addRefR (Value.str s) S0).map
        (((addRefR (Value.str s) S0).pos : Int) + (-1)) = some (Value.str s) := by
      show lookupR [(0, Value.str s)] ((1 : Int) + (-1)) = some (Value.str s)
      norm_num [lookupR]
    rw [this]
    rfl
  show decodeLoop reg 4 S0 [Value.str s, Value.null, Value.num (-1)] = _
  rw [show (4 : Nat) = 3 + 1 from rfl]
  rw [decodeLoop_cons reg hv1 (by
    rw [show (3 : Nat) = 2 + 1 from rfl]
    exact decodeLoop_cons reg hv2 (decodeLoop_nil reg 2 _))]

/-- Concrete evaluation: serializing a byte buffer fails when `Buffer`
has no registered serializer, because a buffer takes the object branch. -/
theorem serialize_buf_pair_eval (id1 id2 : Nat) (c1 c2 : List Nat) :
    serialize emptyRegistry [Value.buf id1 c1, Value.buf id2 c2]
      = .error (.noSerializer none) := by
  have h1 : process emptyRegistry (Value.buf id1 c1) W0 = .error (.noSerializer none) := by
    rw [process_miss emptyRegistry _ W0 rfl, processNew_buf_err emptyRegistry id1 c1 W0 rfl]
  have h2 := processList_cons_err emptyRegistry [Value.buf id2 c2] h1
  simp [serialize, h2]

/-- C1: for every object graph built only from types with registered
capabilities (a well-formed heap snapshot whose object nodes all carry
coherent registrations — in particular no byte buffers, whose `Buffer`
constructor the repository never registers), serialization of the
single-element sequence `[g]` succeeds and decoding the resulting stream
yields exactly `[g']`, where `g'` is `g` with each object identity
replaced by the table position the codec assigned: `g'` is structurally
equal to `g` (identity-erased forms coincide), and shared references are
preserved — two object occurrences with the same identity in `g` decode
to the same reconstructed object value (one identity, not two copies). -/
theorem C1_roundtrip (reg : Registry) (g : Value)
    (hwf : wfB g = true) (hcoh : coherentB reg g = true) :
    ∃ out W', serialize reg [g] = .ok out ∧
      processList reg [g] W0 = .ok (out, W') ∧
      deserialize reg out = .ok [rename W'.map g] ∧
      strip (rename W'.map g) = strip g ∧
      ∀ i t1 f1 t2 f2, Value.obj i t1 f1 ∈ objNodes g →
        Value.obj i t2 f2 ∈ objNodes g →
        rename W'.map (Value.obj i t1 f1) = rename W'.map (Value.obj i t2 f2) := by
  obtain ⟨⟨out, W'⟩, h⟩ := (encodeTotal reg).2 [g] (coherentListB_single reg g hcoh) W0
  obtain ⟨S', hdes, hC⟩ := roundtrip_core reg g hcoh h
  refine ⟨out, W', by simp [serialize, h], h, hdes, strip_rename.1 g W'.map, ?_⟩
  intro i t1 f1 t2 f2 h1 h2
  rw [wfB_same_id hwf h1 h2]

/-- Witness for C1 at a concrete graph with a shared string and a
registered object type. -/
theorem C1_roundtrip_witness :
    wfB (Value.obj 7 1 [Value.str "a", Value.str "a"]) = true ∧
    coherentB regT (Value.obj 7 1 [Value.str "a", Value.str "a"]) = true ∧
    (∃ out W', serialize regT [Value.obj 7 1 [Value.str "a", Value.str "a"]] = .ok out ∧
      processList regT [Value.obj 7 1 [Value.str "a", Value.str "a"]] W0 = .ok (out, W') ∧
      deserialize regT out
        = .ok [rename W'.map (Value.obj 7 1 [Value.str "a", Value.str "a"])] ∧
      strip (rename W'.map (Value.obj 7 1 [Value.str "a", Value.str "a"]))
        = strip (Value.obj 7 1 [Value.str "a", Value.str "a"]) ∧
      ∀ i t1 f1 t2 f2,
        Value.obj i t1 f1 ∈ objNodes (Value.obj 7 1 [Value.str "a", Value.str "a"]) →
        Value.obj i t2 f2 ∈ objNodes (Value.obj 7 1 [Value.str "a", Value.str "a"]) →
        rename W'.map (Value.obj i t1 f1) = rename W'.map (Value.obj i t2 f2)) := by
  have hwf : wfB (Value.obj 7 1 [Value.str "a", Value.str "a"]) = true := by
    have e1 : objNodes (Value.str "a") = [] :=
      objNodes_nonobj _ (fun _ _ _ h => Value.noConfusion h)
    have e2 : objNodes (Value.obj 7 1 [Value.str "a", Value.str "a"])
        = [Value.obj 7 1 [Value.str "a", Value.str "a"]] := by
      rw [objNodes.eq_def]
      simp [objNodesList, e1]
    simp [wfB, e2]
  have hcoh : coherentB regT (Value.obj 7 1 [Value.str "a", Value.str "a"]) = true := by
    have hstr : coherentB regT (Value.str "a") = true := by rw [coherentB.eq_def]
    have hnil : coherentListB regT ([] : List Value) = true := by rw [coherentListB.eq_def]
    have htag : coherentTagB regT 1 2 = true := by
      rw [coherentTagB]
      simp [regT, lookupT, capResolvesTo, lookupG]
    rw [coherentB.eq_def]
    simp only [List.length_cons, List.length_nil]
    rw [htag]
    rw [coherentListB.eq_def]
    simp [hstr, hnil, coherentListB.eq_def]
  exact ⟨hwf, hcoh, C1_roundtrip regT _ hwf hcoh⟩

/-- C2 counterexample: an escape sentinel followed by the numeric offset
`5`, which resolves to nothing in the (empty) read-side table, does not
abort the call with an error — decoding returns normally with the JS
`undefined` value in place of the back-reference (the source has no
check on `referenceable.get(currentPos + nextItem)`). -/
theorem C2_unresolved_counterexample :
    deserialize emptyRegistry [Value.null, Value.num 5] = .ok [Value.undef] :=
  deserialize_unresolved_eval

/-- C2 amended: when an escape sentinel is followed by a numeric item
(other than the literal `1`) whose relative offset does not resolve to a
read-side table entry, `decodeValue` returns the JS `undefined` value
for that back-reference and decoding continues; no error is raised and
the call is not aborted. -/
theorem C2_unresolved_returns_undefined (reg : Registry) (f : Nat) (S : RState) (k : Int)
    (rest : List Value) (hk : k ≠ 1)
    (hmiss : lookupR S.map ((S.pos : Int) + k) = none) :
    decodeValue reg (f + 1) S (Value.null :: Value.num k :: rest)
      = .ok (Value.undef, S, rest) := by
  rw [decode_escape, decode_backref reg f S k rest hk, hmiss]
  rfl

/-- Witness for the amended C2 at offset `5` on the empty table. -/
theorem C2_unresolved_returns_undefined_witness :
    (5 : Int) ≠ 1 ∧ lookupR S0.map ((S0.pos : Int) + 5) = none ∧
    decodeValue emptyRegistry 1 S0 [Value.null, Value.num 5]
      = .ok (Value.undef, S0, []) :=
  ⟨by norm_num, rfl,
    C2_unresolved_returns_undefined emptyRegistry 0 S0 5 [] (by norm_num) rfl⟩

/-- C3 counterexample: encoding a sequence of two equal byte buffers
does not emit one full buffer item and one back-reference — it fails
outright.  A buffer is `typeof "object"`, so `process` routes it to the
object-serializer branch (`getSerializerFor`), and no serializer is
registered for the `Buffer` constructor (the repository never registers
one); the verbatim-emit branch for buffers is unreachable on the write
side. -/
theorem C3_buffer_counterexample :
    serialize emptyRegistry [Value.buf 0 [7], Value.buf 0 [7]]
      = .error (.noSerializer none) :=
  serialize_buf_pair_eval 0 0 [7] [7]

/-- C3 amended: strings are deduplicated by value — encoding `[s, s]`
emits exactly one full string item and one two-item back-reference, and
decoding returns both elements as the same string value.  Byte buffers
never reach the verbatim-emit branch on encode: with no serializer keyed
by the `Buffer` constructor (the repository registers none), encoding a
buffer fails in the object branch.  On decode, a verbatim buffer item in
the stream is registered at one table position and returned as-is. -/
theorem C3_dedup_amended :
    (∀ (reg : Registry) (s : String),
      serialize reg [Value.str s, Value.str s]
        = .ok [Value.str s, Value.null, Value.num (-1)] ∧
      deserialize reg [Value.str s, Value.null, Value.num (-1)]
        = .ok [Value.str s, Value.str s]) ∧
    (∀ (reg : Registry) (id : Nat) (c : List Nat) (W : WState),
      lookupT reg.types none = none → lookupW W.map (Value.buf id c) = none →
      process reg (Value.buf id c) W = .error (.noSerializer none)) ∧
    (∀ (reg : Registry) (f : Nat) (S : RState) (id : Nat) (c : List Nat)
        (rest : List Value),
      decodeValue reg (f + 1) S (Value.buf id c :: rest)
        = .ok (Value.buf id c, addRefR (Value.buf id c) S, rest)) := by
  refine ⟨fun reg s => ⟨serialize_str_pair_eval reg s, deserialize_str_pair_eval reg s⟩,
    fun reg id c W ht hl => ?_, fun reg f S id c rest => decode_buf reg f S id c rest⟩
  rw [process_miss reg _ W hl, processNew_buf_err reg id c W ht]

/-- Witness for the amended C3 at string `"a"` and a concrete buffer. -/
theorem C3_dedup_amended_witness :
    (serialize emptyRegistry [Value.str "a", Value.str "a"]
        = .ok [Value.str "a", Value.null, Value.num (-1)] ∧
      deserialize emptyRegistry [Value.str "a", Value.null, Value.num (-1)]
        = .ok [Value.str "a", Value.str "a"]) ∧
    lookupT emptyRegistry.types none = none ∧
    lookupW W0.map (Value.buf 0 [7]) = none ∧
    process emptyRegistry (Value.buf 0 [7]) W0 = .error (.noSerializer none) :=
  ⟨C3_dedup_amended.1 emptyRegistry "a", rfl, rfl,
    C3_dedup_amended.2.1 emptyRegistry 0 [7] W0 rfl rfl⟩

/-- C5: the escape sentinel as ordinary data is encoded as the pair
`[ESCAPE, ESCAPE_ESCAPE_VALUE]` (the literal `1`) with no
referenceable-table or position effect on the write side, and decoding
that pair returns the sentinel value itself unchanged, with no table or
position effect on the read side; this holds both for the individual
codec steps and for whole serialize/deserialize calls. -/
theorem C5_escape_escape (reg : Registry) :
    (∀ W : WState, lookupW W.map Value.null = none →
      process reg Value.null W = .ok ([Value.null, Value.num 1], W)) ∧
    (∀ (f : Nat) (S : RState) (rest : List Value),
      decodeValue reg (f + 1) S (Value.null :: Value.num 1 :: rest)
        = .ok (Value.null, S, rest)) ∧
    serialize reg [Value.null] = .ok [Value.null, Value.num 1] ∧
    deserialize reg [Value.null, Value.num 1] = .ok [Value.null] := by
  refine ⟨fun W hl => ?_, fun f S rest => ?_, serialize_null_eval reg,
    deserialize_null_eval reg⟩
  · rw [process_miss reg _ W hl, processNew_null]
  · rw [decode_escape, decode_escape_escape]

/-- Witness for C5 on the empty write state. -/
theorem C5_escape_escape_witness :
    lookupW W0.map Value.null = none ∧
    process emptyRegistry Value.null W0 = .ok ([Value.null, Value.num 1], W0) :=
  ⟨rfl, (C5_escape_escape emptyRegistry).1 W0 rfl⟩

/-- C4: write and read sides stay in lockstep.  (1) Decoding the full
encoding of a registered value reproduces it and ends with the read-side
position counter equal to the write-side one (every string and completed
object consumed exactly one position in the same relative order; byte
buffers cannot appear in an encoded stream, their encoding fails).
(2) An object is registered in the write-side table only after its
children: it is absent from the table throughout its own field encoding
and bound afterwards at the then-current position, so no back-reference
to it can be emitted from inside its own encoding.  (3) Table positions
always stay below the position counter, a property preserved by every
step from the initial state, and therefore every emitted relative
back-reference offset `r - pos` is strictly negative — never the
escape-escape literal and never a forward or self reference. -/
theorem C4_lockstep_register_after_children (reg : Registry) :
    (∀ (g : Value) (out : List Value) (W' : WState), coherentB reg g = true →
      process reg g W0 = .ok (out, W') →
      ∃ S', decodeValue reg (out.length + 1) S0 out
          = .ok (rename W'.map g, S', []) ∧ S'.pos = W'.pos) ∧
    (∀ (id tag : Nat) (fs : List Value) (W : WState) (out : List Value) (W' : WState),
      lookupW W.map (Value.obj id tag fs) = none →
      process reg (Value.obj id tag fs) W = .ok (out, W') →
      ∃ cfg o1 W1, lookupT reg.types (some tag) = some cfg ∧
        processList reg fs W = .ok (o1, W1) ∧
        lookupW W1.map (Value.obj id tag fs) = none ∧
        W' = addRefW (Value.obj id tag fs) W1 ∧
        lookupW W'.map (Value.obj id tag fs) = some W1.pos ∧
        W'.pos = W1.pos + 1) ∧
    (∀ (v : Value) (W : WState) (out : List Value) (W' : WState),
      WBoundP W → process reg v W = .ok (out, W') → WBoundP W') ∧
    WBoundP W0 ∧
    (∀ (v : Value) (W : WState) (r : Nat), WBoundP W → lookupW W.map v = some r →
      process reg v W = .ok ([Value.null, Value.num ((r : Int) - (W.pos : Int))], W) ∧
      (r : Int) - (W.pos : Int) < 0) := by
  refine ⟨?_, ?_, ?_, ?_, ?_⟩
  · intro g out W' hcoh h
    obtain ⟨S', hdec, hC⟩ := (simulation reg).1 g W0 S0 out W' [] (out.length + 1)
      coupled_init hcoh h (by omega)
    rw [List.append_nil] at hdec
    exact ⟨S', hdec, hC.posEq⟩
  · intro id tag fs W out W' hl h
    rcases process_inv h with ⟨r, hr, -, -⟩ | ⟨-, hnew⟩
    · rw [hl] at hr; exact absurd hr (by simp)
    · obtain ⟨cfg, o1, W1, ht, h1, -, rfl⟩ := processNew_obj_inv hnew
      have hfresh : lookupW W1.map (Value.obj id tag fs) = none := by
        by_contra hne
        rcases (encodeFacts.2 fs reg W o1 W1 h1).2.2.1 _ hne with h0 | h0
        · rw [hl] at h0; exact h0 rfl
        · have hsz := sizeOf_subVals.2 fs _ h0
          simp at hsz
      exact ⟨cfg, o1, W1, ht, h1, hfresh, rfl, lookupW_self _ _ _, rfl⟩
  · intro v W out W' hb h
    exact (encodeFacts.1 v reg W out W' h).2.2.2.1 hb
  · intro k p h
    simp [W0, lookupW] at h
  · intro v W r hb hl
    have hr := hb v r hl
    exact ⟨process_hit reg v W r hl, by omega⟩

/-- Witness for C4 at the sentinel value on the initial state. -/
theorem C4_lockstep_register_after_children_witness :
    coherentB emptyRegistry Value.null = true ∧
    process emptyRegistry Value.null W0 = .ok ([Value.null, Value.num 1], W0) ∧
    (∃ S', decodeValue emptyRegistry ([Value.null, Value.num 1].length + 1) S0
        [Value.null, Value.num 1]
        = .ok (rename W0.map Value.null, S', []) ∧ S'.pos = W0.pos) := by
  have hcoh : coherentB emptyRegistry Value.null = true := by rw [coherentB.eq_def]
  have hp : process emptyRegistry Value.null W0 = .ok ([Value.null, Value.num 1], W0) := by
    rw [process_miss emptyRegistry _ W0 rfl, processNew_null]
  exact ⟨hcoh, hp,
    (C4_lockstep_register_after_children emptyRegistry).1 Value.null _ W0 hcoh hp⟩

/-- C6: a stream truncated strictly inside the encoding of a value
decodes to the `Unexpected end of stream` error — the read attempted
past the end of the input aborts the whole call, and no partially
reconstructed object is ever returned. -/
theorem C6_truncation_eos (reg : Registry) (g : Value) (out : List Value) (W' : WState)
    (k : Nat) (hcoh : coherentB reg g = true)
    (h : processList reg [g] W0 = .ok (out, W'))
    (hk0 : 0 < k) (hk : k < out.length) :
    deserialize reg (out.take k) = .error .eos := by
  obtain ⟨o1, W1, o2, h1, h2, rfl⟩ := processList_cons_inv h
  obtain ⟨rfl, rfl⟩ := processList_nil_inv h2
  rw [List.append_nil] at hk ⊢
  have htr := (truncation reg).1 g W0 S0 o1 W' k (k + 1) coupled_init hcoh h1 hk0 hk le_rfl
  have hlen : (o1.take k).length = k := by
    rw [List.length_take]
    omega
  rcases he : o1.take k with _ | ⟨d, ds⟩
  · rw [he] at hlen; simp at hlen; omega
  · show decodeLoop reg ((d :: ds).length + 1) S0 (d :: ds) = .error .eos
    have hlen' : (d :: ds).length = k := by rw [← he]; exact hlen
    rw [hlen']
    rw [he] at htr
    exact decodeLoop_cons_err reg htr

/-- Witness for C6: the escaped-escape pair truncated after the escape
sentinel. -/
theorem C6_truncation_eos_witness :
    coherentB emptyRegistry Value.null = true ∧
    processList emptyRegistry [Value.null] W0 = .ok ([Value.null, Value.num 1], W0) ∧
    0 < 1 ∧ 1 < [Value.null, Value.num 1].length ∧
    deserialize emptyRegistry ([Value.null, Value.num 1].take 1) = .error .eos := by
  have hcoh : coherentB emptyRegistry Value.null = true := by rw [coherentB.eq_def]
  have hp : process emptyRegistry Value.null W0 = .ok ([Value.null, Value.num 1], W0) := by
    rw [process_miss emptyRegistry _ W0 rfl, processNew_null]
  have hpl : processList emptyRegistry [Value.null] W0
      = .ok ([Value.null, Value.num 1], W0) := by
    have := processList_cons emptyRegistry hp (processList_nil emptyRegistry W0)
    simpa using this
  exact ⟨hcoh, hpl, by omega, by simp,
    C6_truncation_eos emptyRegistry Value.null _ W0 1 hcoh hpl (by omega) (by simp)⟩

/-- C7: registering a second global capability under an export name that
already has a global entry throws `DuplicateGlobalName` at registration
time and the existing global entry is not overwritten; registering under
a fresh global name succeeds and fills both tables; registering with a
non-global request never throws and fills the per-type table. -/
theorem C7_register_duplicate_global (C : CtorKey) (e : Option String)
    (cap old : Capability) (reg : Registry) :
    (lookupG reg.globals e = some old →
      register C none e cap reg = (reg, some (.duplicateGlobalName e)) ∧
      lookupG (register C none e cap reg).1.globals e = some old) ∧
    (lookupG reg.globals e = none →
      (register C none e cap reg).2 = none ∧
      lookupG (register C none e cap reg).1.globals e = some cap ∧
      lookupT (register C none e cap reg).1.types C = some ⟨none, e, cap⟩) ∧
    (∀ req : String, (register C (some req) e cap reg).2 = none ∧
      lookupT (register C (some req) e cap reg).1.types C = some ⟨some req, e, cap⟩) := by
  refine ⟨fun hdup => ?_, fun hfresh => ?_, fun req => ?_⟩
  · rw [show register C none e cap reg = (reg, some (.duplicateGlobalName e)) from by
      simp [register, hdup]]
    exact ⟨rfl, hdup⟩
  · simp [register, hfresh, lookupG, lookupT]
  · simp [register, lookupT]

/-- Witness for C7 on a registry holding one global entry. -/
theorem C7_register_duplicate_global_witness :
    lookupG regT.globals (some "T") = some ⟨2, 1⟩ ∧
    register (some 9) none (some "T") ⟨3, 9⟩ regT
      = (regT, some (.duplicateGlobalName (some "T"))) ∧
    lookupG (register (some 9) none (some "T") ⟨3, 9⟩ regT).1.globals (some "T")
      = some ⟨2, 1⟩ ∧
    lookupG regT.globals (some "U") = none ∧
    (register (some 9) none (some "U") ⟨3, 9⟩ regT).2 = none := by
  have hdup : lookupG regT.globals (some "T") = some ⟨2, 1⟩ := by
    simp [regT, lookupG]
  have hfresh : lookupG regT.globals (some "U") = none := by
    simp [regT, lookupG]
  obtain ⟨h1, h2⟩ :=
    (C7_register_duplicate_global (some 9) (some "T") ⟨3, 9⟩ ⟨2, 1⟩ regT).1 hdup
  exact ⟨hdup, h1, h2, hfresh,
    ((C7_register_duplicate_global (some 9) (some "U") ⟨3, 9⟩ ⟨2, 1⟩ regT).2.1 hfresh).1⟩

/-- C10: a failing `register` call (global request whose export name is
already taken) throws before performing any mutation: the returned
registry is exactly the input registry, so both the global-name table
and the per-type serializer table — in particular any pre-existing entry
for the same constructor — are untouched. -/
theorem C10_register_atomic_on_failure (C : CtorKey) (e : Option String)
    (cap : Capability) (reg : Registry) (h : (lookupG reg.globals e).isSome) :
    (register C none e cap reg).1 = reg ∧
    (register C none e cap reg).2 = some (.duplicateGlobalName e) ∧
    lookupT (register C none e cap reg).1.types C = lookupT reg.types C ∧
    (∀ e', lookupG (register C none e cap reg).1.globals e' = lookupG reg.globals e') := by
  rcases hg : lookupG reg.globals e with _ | old
  · rw [hg] at h; simp at h
  · simp [register, hg]

/-- Witness for C10: the failing call leaves a pre-existing per-type
entry for the same constructor in place. -/
theorem C10_register_atomic_on_failure_witness :
    (lookupG regT.globals (some "T")).isSome = true ∧
    (register (some 1) none (some "T") ⟨5, 5⟩ regT).1 = regT ∧
    lookupT (register (some 1) none (some "T") ⟨5, 5⟩ regT).1.types (some 1)
      = lookupT regT.types (some 1) := by
  have h : (lookupG regT.globals (some "T")).isSome = true := by
    simp [regT, lookupG]
  obtain ⟨h1, h2, h3, h4⟩ :=
    C10_register_atomic_on_failure (some 1) (some "T") ⟨5, 5⟩ regT h
  exact ⟨h, h1, h3⟩

/-- C8: the field-list capability writes each named field's current
value in list order through the sink; deserializing reads the same
number of values in order, assigns them to the listed fields of a fresh
instance, and invokes the post-construction hook (identity when absent)
exactly once on the fully-populated instance before returning it — so
serializing then deserializing a record reproduces every listed field,
and the items consumed are exactly the items written. -/
theorem C8_field_list_roundtrip (S : PropSerializer) (source : Rec) (rest : List Value) :
    psSerialize S source = S.properties.map (getProp source) ∧
    (psDeserialize S (psSerialize S source ++ rest)).2 = rest ∧
    psDeserialize S (psSerialize S source ++ rest)
      = ((S.onRestored.getD id)
          (psReadFields S.properties S.ctor (psSerialize S source ++ rest)).1, rest) ∧
    (∀ p, p ∈ S.properties →
      getProp (psReadFields S.properties S.ctor (psSerialize S source ++ rest)).1 p
        = getProp source p) := by
  have hmap : ∀ (ps : List String) (o : Rec), psWriteFields ps o = ps.map (getProp o) := by
    intro ps o
    induction ps with
    | nil => rfl
    | cons p ps ih => rw [show psWriteFields (p :: ps) o
        = getProp o p :: psWriteFields ps o from rfl, ih, List.map_cons]
  obtain ⟨hrest, hin, hout⟩ := psReadFields_spec S.properties S.ctor source rest
  have hser : psSerialize S source = psWriteFields S.properties source := rfl
  refine ⟨by rw [hser, hmap], ?_, ?_, ?_⟩
  · rw [psDeserialize_hook, hser]
    exact hrest
  · rw [psDeserialize_hook, hser, hrest]
  · intro p hp
    rw [hser]
    exact hin p hp

/-- Witness for C8 on the record `{a: 1, b: "x"}` over the field list
`["a", "b"]` with a hook that marks the instance restored. -/
theorem C8_field_list_roundtrip_witness :
    ("a" : String) ∈ ["a", "b"] ∧ ("b" : String) ∈ ["a", "b"] ∧
    (∀ p, p ∈ (["a", "b"] : List String) →
      getProp (psReadFields ["a", "b"]
        (⟨[], ["a", "b"],
          some (fun o => setProp o "restored" (Value.boolV true))⟩ : PropSerializer).ctor
        (psSerialize
          ⟨[], ["a", "b"], some (fun o => setProp o "restored" (Value.boolV true))⟩
          [("a", Value.num 1), ("b", Value.str "x")] ++ [])).1 p
        = getProp [("a", Value.num 1), ("b", Value.str "x")] p) := by
  refine ⟨by simp, by simp, ?_⟩
  exact (C8_field_list_roundtrip
    ⟨[], ["a", "b"], some (fun o => setProp o "restored" (Value.boolV true))⟩
    [("a", Value.num 1), ("b", Value.str "x")] []).2.2.2

/-- C9: `serializeToFile` wraps the root object in a single-element
sequence and folds each stage's `serialize` left-to-right with promise
chaining, so the overall promise resolves to the pure left fold of the
stages' resolved results and the call always returns a promise;
`deserializeFromFile` folds the stages' `deserialize` in reverse order
starting from an empty sequence and resolves to the first element of the
result (`undefined` when empty). -/
theorem C9_pipeline_folds (mws : List Middleware) (obj : Value) (fn : String) :
    (serializeToFile mws obj fn).val
      = mws.foldl (fun acc m => (m.fwd acc fn).val) [obj] ∧
    (∃ a, serializeToFile mws obj fn = PVal.promise a) ∧
    (deserializeFromFile mws fn).val
      = (mws.reverse.foldl (fun acc m => (m.bwd acc fn).val) []).headD Value.undef ∧
    (∃ a, deserializeFromFile mws fn = PVal.promise a) := by
  refine ⟨?_, ?_, ?_, ?_⟩
  · rw [serializeToFile, presolve_val, foldFwd_val]
    rfl
  · exact presolve_promise _
  · rw [deserializeFromFile]
    show ((mws.reverse.foldl (stepBwd fn) (PVal.now []) |> presolve).val.headD
        Value.undef) = _
    rw [presolve_val, foldBwd_val]
    rfl
  · exact ⟨_, rfl⟩
